import Mathlib

/-!
Verification of toshi-hazard-post: a shallow embedding of the logic-tree
combinatorics engine (toshi_hazard_post/logic_tree.py), the weighted
aggregation engine (toshi_hazard_post/aggregation_calc.py) and the
job-dispatch layer (toshi_hazard_post/aggregation.py), together with
theorems settling the frozen behavioural claims about them.

Numeric convention: Python floats are embedded as exact rationals, so
floating-tolerance statements are settled in exact arithmetic.  Python
exceptions are embedded with values of type Except PyError.
-/

/-- Python exceptions that the embedded code can raise. -/
inductive PyError where
  | notImplementedError (msg : String)
  | keyError (key : String)
  | stopIteration
  | exception (msg : String)
deriving DecidableEq, Repr

/-- Sequential effectful map: runs the computation on each list element in
order and stops at the first raised exception, exactly as a Python loop
over the elements would. -/
def mapME {α β : Type} (f : α → Except PyError β) : List α → Except PyError (List β)
  | [] => .ok []
  | a :: as =>
    match f a with
    | .error e => .error e
    | .ok b =>
      match mapME f as with
      | .error e => .error e
      | .ok bs => .ok (b :: bs)

/-- Cross product of two lists in the iteration order of itertools.product:
the first list varies slowest. -/
def pairProd {α β : Type} (xs : List α) (ys : List β) : List (α × β) :=
  (xs.map (fun x => ys.map (fun y => (x, y)))).flatten

/-- All ways of picking one element from each list, in the iteration order
of itertools.product applied to the lists: later lists vary fastest. -/
def listProd {α : Type} : List (List α) → List (List α)
  | [] => [[]]
  | l :: ls => (l.map (fun x => (listProd ls).map (fun c => x :: c))).flatten

/-- A branch of the seismicity rate model (SRM) logic tree, as exposed by
the external nzshm-model SourceLogicTree (spec section 6 collaborator):
a weight, the tectonic region types the branch covers, and the registry
identity used for content-addressed hashing. -/
structure SourceBranch where
  weight : ℚ
  tectonic_region_types : List String
  registry_identity : String
deriving DecidableEq, Repr

/-- A composite branch of the SRM tree as enumerated by the external
nzshm-model tree (its own independent-choice combinatorics, including any
source-branch correlations): the constituent source branches together with
the composite's own weight, which may already encode correlation effects. -/
structure SourceCompositeBranch where
  branches : List SourceBranch
  weight : ℚ
deriving DecidableEq, Repr

/-- A branch set of the SRM logic tree; the engine reads only its
tectonic region type annotations (logic_tree.py line 124). -/
structure SourceBranchSet where
  tectonic_region_types : List String
deriving DecidableEq, Repr

/-- The SRM logic tree as consumed by HazardLogicTree: branch sets with
region-type annotations and the tree's own composite-branch enumeration.
The enumeration is owned by the external collaborator, so it is carried
as data rather than recomputed. -/
structure SourceLogicTree where
  branch_sets : List SourceBranchSet
  composite_branches : List SourceCompositeBranch
deriving DecidableEq, Repr

/-- A branch of the ground motion characterisation model (GMCM) logic tree,
as exposed by nzshm-model.  The ref field embeds Python object identity:
two GMCMBranch values with distinct ref model distinct Python objects even
when all dataclass fields agree. -/
structure GMCMBranch where
  ref : Nat
  weight : ℚ
  tectonic_region_type : String
  registry_identity : String
deriving DecidableEq, Repr, Inhabited

/-- A branch set of the GMCM logic tree: a region type and its mutually
exclusive branches. -/
structure GMCMBranchSet where
  tectonic_region_type : String
  branches : List GMCMBranch
deriving DecidableEq, Repr

/-- The GMCM logic tree: its branch sets.  Its composite-branch enumeration
is the cross product of the branch sets (gmcmCompositeBranches below). -/
structure GMCMLogicTree where
  branch_sets : List GMCMBranchSet
deriving DecidableEq, Repr

/-- Composite-branch enumeration of the GMCM tree, as documented for the
external nzshm-model collaborator: all combinations of one branch from
each branch set.  It is a function of the branch sets, so filtering the
branch sets changes the enumeration, as the engine relies on. -/
def gmcmCompositeBranches (t : GMCMLogicTree) : List (List GMCMBranch) :=
  listProd (t.branch_sets.map (fun bs => bs.branches))

/-- The branch registry (spec section 6): a deterministic content-addressed
lookup from a branch's registry identity to its fixed-width hash digest.
It is injected as data so that theorems hold for every registry. -/
structure Registry where
  source_lookup : String → String
  gmm_lookup : String → String

/-- Python equality test between two GMCMBranch objects as used by the
membership test gsim not in gsims (logic_tree.py line 90): an element
matches if it is the same object or compares equal; nzshm-model branches
are dataclasses, whose equality compares the dataclass fields. -/
def pyEq (a b : GMCMBranch) : Bool :=
  a.ref == b.ref ||
    (a.weight == b.weight && a.tectonic_region_type == b.tectonic_region_type &&
      a.registry_identity == b.registry_identity)

/-- Dedup by object identity only, the wording used by the specification
for the composite-branch weight (spec section 3). -/
def refUniqueGsims (gsims : List GMCMBranch) : List GMCMBranch :=
  gsims.foldl (fun acc g => if acc.any (fun x => x.ref == g.ref) then acc else acc ++ [g]) []

/-- A component branch of the combined tree (HazardComponentBranch): one
source branch paired with the matching GMCM branches, with the derived
weight and the eagerly computed hash digest (logic_tree.py lines 27-38). -/
structure HazardComponentBranch where
  source_branch : SourceBranch
  gmcm_branches : List GMCMBranch
  weight : ℚ
  hash_digest : String
deriving DecidableEq, Repr

/-- HazardComponentBranch.gmcm_hash_digest (logic_tree.py lines 55-60):
raises NotImplementedError unless there is exactly one GMCM branch, and
otherwise looks the branch up in the registry. -/
def gmcm_hash_digest (reg : Registry) (gmcm_branches : List GMCMBranch) : Except PyError String :=
  if gmcm_branches.length != 1 then
    .error (.notImplementedError "multiple gmcm branches for a component branch is not implemented")
  else
    .ok (reg.gmm_lookup ((gmcm_branches.headD default).registry_identity))

/-- HazardComponentBranch.source_hash_digest (logic_tree.py lines 62-65). -/
def source_hash_digest (reg : Registry) (source_branch : SourceBranch) : String :=
  reg.source_lookup source_branch.registry_identity

/-- HazardComponentBranch.__init__ (logic_tree.py lines 27-38): stores the
branches, computes weight = prod([source.weight] + gmcm weights), and
computes hash_digest = source_hash_digest + gmcm_hash_digest eagerly, so
construction itself raises when the gmcm digest is unavailable. -/
def mkHazardComponentBranch (reg : Registry) (source_branch : SourceBranch)
    (gmcm_branches : List GMCMBranch) : Except PyError HazardComponentBranch :=
  match gmcm_hash_digest reg gmcm_branches with
  | .error e => .error e
  | .ok gd =>
    .ok { source_branch := source_branch
          gmcm_branches := gmcm_branches
          weight := (source_branch.weight :: gmcm_branches.map (fun b => b.weight)).prod
          hash_digest := source_hash_digest reg source_branch ++ gd }

/-- A composite branch of the combined tree (HazardCompositeBranch): the
component branches and the derived weight. -/
structure HazardCompositeBranch where
  branches : List HazardComponentBranch
  weight : ℚ
deriving DecidableEq, Repr

/-- The gsim accumulation loop of HazardCompositeBranch.__init__
(logic_tree.py lines 87-91): walk every gmcm branch of every component
branch and append it unless an equal one was already collected. -/
def uniqueGsims (branches : List HazardComponentBranch) : List GMCMBranch :=
  branches.foldl
    (fun gsims branch =>
      branch.gmcm_branches.foldl
        (fun gs gsim => if gs.any (fun x => pyEq gsim x) then gs else gs ++ [gsim]) gsims)
    []

/-- HazardCompositeBranch.__init__ (logic_tree.py lines 76-93): weight is
the product of the unique gsim weights times the source composite weight
passed in by the caller. -/
def mkHazardCompositeBranch (branches : List HazardComponentBranch)
    (source_weight : ℚ) : HazardCompositeBranch :=
  { branches := branches
    weight := ((uniqueGsims branches).map (fun g => g.weight)).prod * source_weight }

/-- The matching step of HazardLogicTree._generate_composite_branches
(logic_tree.py lines 193-194): from one GMCM composite branch select the
branches whose region type is among the source branch's region types. -/
def matchGmcmBranches (srm_branch : SourceBranch) (gmcm_composite : List GMCMBranch) :
    List GMCMBranch :=
  gmcm_composite.filter (fun b => srm_branch.tectonic_region_types.contains b.tectonic_region_type)

/-- The body of HazardLogicTree._generate_composite_branches for one
(srm composite, gmcm composite) pair (logic_tree.py lines 190-199): build
one HazardComponentBranch per source branch from the matching GMCM
branches, then assemble them with the source composite's own weight. -/
def buildCompositeBranch (reg : Registry) (s : SourceCompositeBranch)
    (g : List GMCMBranch) : Except PyError HazardCompositeBranch :=
  match mapME (fun srm_branch => mkHazardComponentBranch reg srm_branch
      (matchGmcmBranches srm_branch g)) s.branches with
  | .error e => .error e
  | .ok hbranches => .ok (mkHazardCompositeBranch hbranches s.weight)

/-- The set of tectonic region types used by the SRM tree
(logic_tree.py line 124); membership tests are what the set is used for,
so it is embedded as the concatenated list. -/
def hazardTrts (srm : SourceLogicTree) : List String :=
  (srm.branch_sets.map (fun bs => bs.tectonic_region_types)).flatten

/-- The GMCM-filtering step of HazardLogicTree.__init__ (logic_tree.py
lines 126-130): a working copy of the GMCM tree keeping only the branch
sets whose region type is used by the SRM tree. -/
def filteredGmcmTree (srm : SourceLogicTree) (gmcm : GMCMLogicTree) : GMCMLogicTree :=
  { branch_sets :=
      gmcm.branch_sets.filter (fun bs => (hazardTrts srm).contains bs.tectonic_region_type) }

/-- HazardLogicTree._generate_composite_branches (logic_tree.py lines
184-199): one HazardCompositeBranch per pair in the cross product of the
SRM tree's own composite enumeration and the filtered GMCM tree's
composite enumeration, in iteration order; the first exception aborts the
generation. -/
def generateCompositeBranches (reg : Registry) (srm : SourceLogicTree)
    (gmcm : GMCMLogicTree) : Except PyError (List HazardCompositeBranch) :=
  mapME (fun p => buildCompositeBranch reg p.1 p.2)
    (pairProd srm.composite_branches (gmcmCompositeBranches (filteredGmcmTree srm gmcm)))

/-- HazardLogicTree.weights (logic_tree.py lines 160-167): one weight per
composite branch, in the same order as the composite branches. -/
def hazardWeights (reg : Registry) (srm : SourceLogicTree) (gmcm : GMCMLogicTree) :
    Except PyError (List ℚ) :=
  match generateCompositeBranches reg srm gmcm with
  | .error e => .error e
  | .ok cs => .ok (cs.map (fun c => c.weight))

/-- HazardLogicTree.branch_hash_table (logic_tree.py lines 169-182): one
row per composite branch listing its component hash digests. -/
def hazardBranchHashTable (reg : Registry) (srm : SourceLogicTree) (gmcm : GMCMLogicTree) :
    Except PyError (List (List String)) :=
  match generateCompositeBranches reg srm gmcm with
  | .error e => .error e
  | .ok cs => .ok (cs.map (fun c => c.branches.map (fun b => b.hash_digest)))

/-- Lookup in the component-rate dictionary; a missing key raises KeyError
exactly as a Python dict subscript does. -/
def dictLookup (component_rates : List (String × List ℚ)) (key : String) :
    Except PyError (List ℚ) :=
  match component_rates.lookup key with
  | some v => .ok v
  | none => .error (.keyError key)

/-- Elementwise vector addition, the numpy += of two equal-shape arrays
(calc_composite_rates operates on vectors of a common length nlevels). -/
def addVec (a b : List ℚ) : List ℚ :=
  List.zipWith (fun x y => x + y) a b

/-- The zero vector np.zeros((nlevels,)). -/
def zerosVec (nlevels : Nat) : List ℚ :=
  List.replicate nlevels (0 : ℚ)

/-- The accumulation loop of calc_composite_rates: rates += lookup, hash by
hash, stopping at the first missing key. -/
def calcCompositeRatesAux (component_rates : List (String × List ℚ)) :
    List String → List ℚ → Except PyError (List ℚ)
  | [], rates => .ok rates
  | h :: hs, rates =>
    match dictLookup component_rates h with
    | .error e => .error e
    | .ok v => calcCompositeRatesAux component_rates hs (addVec rates v)

/-- calc_composite_rates (aggregation_calc.py lines 153-172): the rate
vector of one composite branch is the running elementwise sum, starting
from zeros, of the component rate vectors looked up by hash. -/
def calc_composite_rates (branch_hashes : List String)
    (component_rates : List (String × List ℚ)) (nlevels : Nat) : Except PyError (List ℚ) :=
  calcCompositeRatesAux component_rates branch_hashes (zerosVec nlevels)

/-- build_branch_rates (aggregation_calc.py lines 193-204): reads nlevels
from the first dictionary value (next(iter(...)) raises StopIteration on
an empty dict) and computes one composite rate vector per hash-table row. -/
def build_branch_rates (branch_hash_table : List (List String))
    (component_rates : List (String × List ℚ)) : Except PyError (List (List ℚ)) :=
  match component_rates with
  | [] => .error .stopIteration
  | (_, v) :: _ =>
    mapME (fun row => calc_composite_rates row component_rates v.length) branch_hash_table

/-- Digit test for the decimal-token parser. -/
def allDigits (cs : List Char) : Bool :=
  cs.all (fun c => c.isDigit)

/-- Numeric value of a digit string. -/
def digitsToNat (cs : List Char) : Nat :=
  cs.foldl (fun n c => 10 * n + (c.toNat - 48)) 0

/-- Modelled from the spec: Python float() applied to an aggregation token,
restricted to the token grammar the spec admits (the literal statistics
names never parse; fractile tokens are unsigned decimal literals such as
0.5).  Returns the parsed rational, or none when parsing raises
ValueError. -/
def parseDecimal (s : String) : Option ℚ :=
  let cs := s.data
  if cs.contains '.' then
    let a := cs.takeWhile (fun c => c ≠ '.')
    let b := (cs.dropWhile (fun c => c ≠ '.')).tail
    if b.contains '.' then none
    else if decide (0 < a.length + b.length) && allDigits a && allDigits b then
      some ((digitsToNat a : ℚ) + (digitsToNat b : ℚ) / (10 : ℚ) ^ b.length)
    else none
  else if decide (0 < cs.length) && allDigits cs then some (digitsToNat cs : ℚ)
  else none

/-- The is_float helper of calculate_aggs (aggregation_calc.py lines
110-115): whether float() on the token succeeds. -/
def is_float (s : String) : Bool :=
  (parseDecimal s).isSome

/-- The numeric value of a fractile token (float(pt) in aggregation_calc.py
line 128). -/
def floatOfToken (s : String) : ℚ :=
  (parseDecimal s).getD 0

/-- Column j of the branch-rates array (branch_rates[:, j]). -/
def column (branch_rates : List (List ℚ)) (j : Nat) : List ℚ :=
  branch_rates.map (fun r => r.getD j 0)

/-- Modelled from the spec: the weighted mean of one intensity level column
computed by calculators.weighted_avg_and_std (calculators.py is not in the
source tree); mean = sum(w_i * v_i) / sum(w_i). -/
def weightedMeanAt (branch_rates : List (List ℚ)) (weights : List ℚ) (j : Nat) : ℚ :=
  ((branch_rates.zip weights).map (fun p => p.2 * p.1.getD j 0)).sum / weights.sum

/-- Modelled from the spec: the weighted population variance of one column,
using the same weights as the mean. -/
def weightedVarAt (branch_rates : List (List ℚ)) (weights : List ℚ) (j : Nat) : ℚ :=
  ((branch_rates.zip weights).map
    (fun p => p.2 * (p.1.getD j 0 - weightedMeanAt branch_rates weights j) ^ 2)).sum /
    weights.sum

/-- Modelled from the spec: the mean vector over all levels returned by
calculators.weighted_avg_and_std. -/
def weighted_mean (branch_rates : List (List ℚ)) (weights : List ℚ) : List ℚ :=
  (List.range (branch_rates.headD []).length).map (weightedMeanAt branch_rates weights)

/-- Modelled from the spec: the standard-deviation vector returned by
calculators.weighted_avg_and_std; the square root of the exact rational
variance is taken with Rat.sqrt, which agrees with the real square root
whenever the variance is a perfect square of a rational (none of the
claims depends on the value of an irrational square root). -/
def weighted_std (branch_rates : List (List ℚ)) (weights : List ℚ) : List ℚ :=
  (List.range (branch_rates.headD []).length).map
    (fun j => Rat.sqrt (weightedVarAt branch_rates weights j))

/-- Modelled from the spec: calculators.cov on one level; std / mean, and
exactly zero when the mean is exactly zero (deliberate contract, spec
section 4.2). -/
def covAt (m s : ℚ) : ℚ :=
  if m = 0 then 0 else s / m

/-- Modelled from the spec: the coefficient-of-variation vector
cov = calculators.cov(mean, std), elementwise. -/
def cov_vec (mean std : List ℚ) : List ℚ :=
  List.zipWith covAt mean std

/-- Insertion step of the value sort used by the weighted quantile. -/
def insertSorted (p : ℚ × ℚ) : List (ℚ × ℚ) → List (ℚ × ℚ)
  | [] => [p]
  | q :: qs => if p.1 ≤ q.1 then p :: q :: qs else q :: insertSorted p qs

/-- Sort (value, weight) pairs by value, keeping ties in input order. -/
def sortByValue (l : List (ℚ × ℚ)) : List (ℚ × ℚ) :=
  l.foldr insertSorted []

/-- Running sums of a weight list, used to build the weighted cumulative
distribution. -/
def runningSums (acc : ℚ) : List ℚ → List ℚ
  | [] => []
  | w :: ws => (acc + w) :: runningSums (acc + w) ws

/-- Linear interpolation along cumulative-weight knots (cdf, value): the
value at the first knot covers points at or below it, points between two
knots interpolate linearly, and points beyond the last knot clamp to it. -/
def interpCdf (p : ℚ) : List (ℚ × ℚ) → ℚ
  | [] => 0
  | [k] => k.2
  | k1 :: k2 :: rest =>
    if p ≤ k1.1 then k1.2
    else if p ≤ k2.1 then k1.2 + (k2.2 - k1.2) * (p - k1.1) / (k2.1 - k1.1)
    else interpCdf p (k2 :: rest)

/-- Modelled from the spec: calculators.weighted_quantiles for a single
fractile point (calculators.py is not in the source tree): sort the branch
values of one level, build the weighted cumulative distribution, and
linearly interpolate between the bracketing sorted points. -/
def weighted_quantile (values : List ℚ) (weights : List ℚ) (p : ℚ) : ℚ :=
  let pairs := sortByValue (values.zip weights)
  let total := (pairs.map (fun q => q.2)).sum
  let cdf := (runningSums 0 (pairs.map (fun q => q.2))).map (fun c => c / total)
  interpCdf p (cdf.zip (pairs.map (fun q => q.1)))

/-- One output row for one fractile point: the weighted quantile of every
level column, matching the per-level loop of calculate_aggs
(aggregation_calc.py lines 137-140). -/
def quantileRow (branch_rates : List (List ℚ)) (weights : List ℚ) (p : ℚ) : List ℚ :=
  (List.range (branch_rates.headD []).length).map
    (fun j => weighted_quantile (column branch_rates j) weights p)

/-- The index helper of calculate_aggs (aggregation_calc.py lines
117-122): the position of the first occurrence of a value in a list, or
none when list.index raises ValueError. -/
def indexTok (lst : List String) (value : String) : Option Nat :=
  match lst with
  | [] => none
  | t :: ts => if t == value then some 0 else (indexTok ts value).map (fun n => n + 1)

/-- calculate_aggs (aggregation_calc.py lines 95-150).  idx_mean, idx_std
and idx_cov are the first list positions of the literal tokens; the
fractile mask positions receive, in order, the rows for the parsed
fractile points; all other rows of the np.empty output are never assigned
and are embedded as none.  The shared mean/std/cov intermediates are let
bound; the embedding is pure so the conditional skip of the shared
computation is observationally identical. -/
def calculate_aggs (branch_rates : List (List ℚ)) (weights : List ℚ)
    (agg_types : List String) : List (Option (List ℚ)) :=
  let idx_mean := indexTok agg_types "mean"
  let idx_std := indexTok agg_types "std"
  let idx_cov := indexTok agg_types "cov"
  let quantile_points := (agg_types.filter is_float).map floatOfToken
  let qrows := quantile_points.map (quantileRow branch_rates weights)
  let mean := weighted_mean branch_rates weights
  let std := weighted_std branch_rates weights
  let covv := cov_vec mean std
  (List.range agg_types.length).map (fun j =>
    if idx_mean == some j then some mean
    else if idx_std == some j then some std
    else if idx_cov == some j then some covv
    else if is_float (agg_types.getD j "") then
      some (qrows.getD ((agg_types.take j).filter is_float).length [])
    else none)

/-- A single aggregation job: one (vs30, location, intensity measure)
triple of the enumeration performed by generate_agg_jobs. -/
structure AggJob where
  vs30 : Nat
  location : String
  imt : String
deriving DecidableEq, Repr

/-- generate_agg_jobs (aggregation.py lines 54-114), abstracted over the
realization store: jobs is the (vs30, location bin, location, imt)
enumeration in iteration order and recordCount the number of store records
matching one job's filters.  For each job the generator checks the record
count against the component-branch count before yielding the job; a failed
check raises inside the generator, so the result is the list of jobs
yielded before the failure together with the pending exception, if any. -/
def generate_agg_jobs (jobs : List AggJob) (recordCount : AggJob → Nat)
    (nbranches : Nat) : List AggJob × Option PyError :=
  match jobs with
  | [] => ([], none)
  | j :: js =>
    if recordCount j == 0 then
      ([], some (.exception "no records found for location/imt"))
    else if recordCount j != nbranches then
      ([], some (.exception "incorrect number of records found for location/imt"))
    else
      let rest := generate_agg_jobs js recordCount nbranches
      (j :: rest.1, rest.2)

/-- The run report printed at the end of run_aggregation: total jobs
submitted and how many of their futures carried an exception. -/
structure RunReport where
  total : Nat
  failed : Nat
deriving DecidableEq, Repr

/-- The observable outcome of a run: which jobs were submitted to the
worker pool, and the final report; the report is none when the run aborts
with an exception before the completion loop runs. -/
structure RunOutcome where
  attempted : List AggJob
  report : Option RunReport
deriving DecidableEq, Repr

/-- Whether a job's future carries an exception. -/
def isErr (r : Except PyError Unit) : Bool :=
  match r with
  | .error _ => true
  | .ok _ => false

/-- The dispatch loop of run_aggregation (aggregation.py lines 203-258),
abstracted over the worker outcome jobResult of calc_aggregation: every
job yielded by generate_agg_jobs is submitted to the pool; each completed
future's exception is observed with future.exception(), logged with its
task args, and counted.  An exception raised by the generator itself
propagates out of the submission loop: the run aborts, the completion loop
never runs, and no report is produced. -/
def run_aggregation (jobs : List AggJob) (recordCount : AggJob → Nat) (nbranches : Nat)
    (jobResult : AggJob → Except PyError Unit) : RunOutcome :=
  let generated := generate_agg_jobs jobs recordCount nbranches
  match generated.2 with
  | some _ => { attempted := generated.1, report := none }
  | none =>
    { attempted := generated.1
      report := some
        { total := generated.1.length
          failed := (generated.1.filter (fun j => isErr (jobResult j))).length } }

/-- A heap of Python list objects holding GMCM branch sets, used to settle
the frame claim about HazardLogicTree.__init__: cells maps an address to
the list stored there and next is the next fresh address. -/
structure ListStore where
  cells : Nat → List GMCMBranchSet
  next : Nat

/-- Allocate a fresh list object holding v, returning its address. -/
def allocCell (st : ListStore) (v : List GMCMBranchSet) : Nat × ListStore :=
  (st.next, { cells := fun i => if i = st.next then v else st.cells i, next := st.next + 1 })

/-- Overwrite the list object at address i, the effect of a Python slice
assignment obj[:] = .... -/
def writeCell (st : ListStore) (i : Nat) (v : List GMCMBranchSet) : ListStore :=
  { cells := fun k => if k = i then v else st.cells k, next := st.next }

/-- HazardLogicTree.__init__ (logic_tree.py lines 113-133) with the branch
set lists held in an explicit heap: compute trts from the SRM tree, deep
copy the GMCM tree's branch-set list into a fresh cell, then slice assign
into the copy the filter computed from the original gmcm_logic_tree
argument.  Returns the address of the working copy and the final heap. -/
def hazardLogicTreeInitHeap (srm : SourceLogicTree) (gmcmPtr : Nat) (st : ListStore) :
    Nat × ListStore :=
  let trts := hazardTrts srm
  let copyAlloc := allocCell st (st.cells gmcmPtr)
  let copyPtr := copyAlloc.1
  let st1 := copyAlloc.2
  let st2 := writeCell st1 copyPtr
    ((st1.cells gmcmPtr).filter (fun bs => trts.contains bs.tectonic_region_type))
  (copyPtr, st2)

/-- Whether an aggregation token is valid per the specification: one of
the literal statistics names, or a decimal fractile strictly between 0
and 1. -/
def validTok (t : String) : Bool :=
  t == "mean" || t == "std" || t == "cov" ||
    (is_float t && decide (0 < floatOfToken t) && decide (floatOfToken t < 1))

/-- The output row calculate_aggs owes to one aggregation token, as a
function of the token, the branch rates and the weights alone; used to
state that a row does not depend on the token's position nor on the other
requested tokens. -/
def tokRow (branch_rates : List (List ℚ)) (weights : List ℚ) (t : String) :
    Option (List ℚ) :=
  if t == "mean" then some (weighted_mean branch_rates weights)
  else if t == "std" then some (weighted_std branch_rates weights)
  else if t == "cov" then
    some (cov_vec (weighted_mean branch_rates weights) (weighted_std branch_rates weights))
  else if is_float t then some (quantileRow branch_rates weights (floatOfToken t))
  else none

/-- Concrete registry fixture: constant content hashes, enough to exercise
the digest plumbing. -/
def fixReg : Registry :=
  ⟨fun _ => "SRCH", fun _ => "GMMH"⟩

/-- Concrete SRM tree fixture with one branch set, two composite branches
of weight one half each. -/
def fixSrm1 : SourceLogicTree :=
  ⟨[⟨["Active Shallow Crust"]⟩],
    [⟨[⟨1/2, ["Active Shallow Crust"], "s1"⟩], 1/2⟩,
     ⟨[⟨1/2, ["Active Shallow Crust"], "s2"⟩], 1/2⟩]⟩

/-- Concrete GMCM branch set fixture: two crustal branches whose weights
sum to one. -/
def fixBsA : GMCMBranchSet :=
  ⟨"Active Shallow Crust",
    [⟨0, 1/3, "Active Shallow Crust", "g1"⟩, ⟨1, 2/3, "Active Shallow Crust", "g2"⟩]⟩

/-- Concrete GMCM tree fixture with one branch set of two branches whose
weights sum to one. -/
def fixGmcm1 : GMCMLogicTree :=
  ⟨[fixBsA]⟩

/-- Concrete SRM tree fixture whose single source branch covers two region
types, one of which is absent from fixGmcm2. -/
def fixSrm2 : SourceLogicTree :=
  ⟨[⟨["Active Shallow Crust", "Subduction Interface"]⟩],
    [⟨[⟨1, ["Active Shallow Crust", "Subduction Interface"], "s1"⟩], 1⟩]⟩

/-- Concrete GMCM tree fixture lacking the Subduction Interface region. -/
def fixGmcm2 : GMCMLogicTree :=
  ⟨[⟨"Active Shallow Crust", [⟨0, 1, "Active Shallow Crust", "g1"⟩]⟩]⟩

/-- Concrete SRM tree fixture whose single source branch covers only a
region type absent from fixGmcm2. -/
def fixSrm2b : SourceLogicTree :=
  ⟨[⟨["Subduction Interface"]⟩],
    [⟨[⟨1, ["Subduction Interface"], "s1"⟩], 1⟩]⟩

/-- Concrete source composite branch fixture for the composite-weight
claim: a single source branch and a composite weight of one half. -/
def fixS4 : SourceCompositeBranch :=
  ⟨[⟨1/2, ["Active Shallow Crust"], "s1"⟩], 1/2⟩

/-- Concrete GMCM composite branch fixture: one branch of weight one
third. -/
def fixG4 : List GMCMBranch :=
  [⟨0, 1/3, "Active Shallow Crust", "g1"⟩]

/-- The hazard composite branch that buildCompositeBranch yields on fixS4
and fixG4. -/
def fixC4 : HazardCompositeBranch :=
  ⟨[⟨⟨1/2, ["Active Shallow Crust"], "s1"⟩, fixG4, 1/6, "SRCHGMMH"⟩], 1/6⟩

/-- The ten-point linspace(0, 1, 10) used by the rate-additivity fixture. -/
def linspace01 : List ℚ :=
  [0, 1/9, 2/9, 1/3, 4/9, 5/9, 2/3, 7/9, 8/9, 1]

/-- Component rate vectors of the rate-additivity fixture: digest i holds
i * linspace(0, 1, 10). -/
def fixRatesC5 (d : String) : List ℚ :=
  if d = "d0" then linspace01.map (fun x => 0 * x)
  else if d = "d1" then linspace01.map (fun x => 1 * x)
  else linspace01.map (fun x => 2 * x)

/-- Component-rate map of the rate-additivity fixture. -/
def fixMapC5 : List (String × List ℚ) :=
  [("d0", fixRatesC5 "d0"), ("d1", fixRatesC5 "d1"), ("d2", fixRatesC5 "d2")]

/-- Branch hash table of the rate-additivity fixture: one composite branch
made of all three components. -/
def fixTableC5 : List (List String) :=
  [["d0", "d1", "d2"]]

/-- Branch-rates fixture for the aggregation order-invariance claim. -/
def fixBr7 : List (List ℚ) :=
  [[0, 1/10], [1, 3/10]]

/-- Weights fixture for the aggregation order-invariance claim. -/
def fixW7 : List ℚ :=
  [1/2, 1/2]

/-!
Helper lemmas shared by the claim theorems.
-/

theorem gmcm_hash_digest_error_shape (reg : Registry) (gbs : List GMCMBranch) (e : PyError)
    (h : gmcm_hash_digest reg gbs = .error e) :
    e = .notImplementedError "multiple gmcm branches for a component branch is not implemented" := by
  unfold gmcm_hash_digest at h
  split at h
  · simp only [Except.error.injEq] at h
    exact h.symm
  · exact absurd h (by simp)

theorem mkHazardComponentBranch_len_ne_one (reg : Registry) (sb : SourceBranch)
    (gbs : List GMCMBranch) (h : gbs.length ≠ 1) :
    mkHazardComponentBranch reg sb gbs =
      .error (.notImplementedError
        "multiple gmcm branches for a component branch is not implemented") := by
  have hb : (gbs.length != 1) = true := by simpa [bne_iff_ne] using h
  simp [mkHazardComponentBranch, gmcm_hash_digest, hb]

theorem mkHazardComponentBranch_error_shape (reg : Registry) (sb : SourceBranch)
    (gbs : List GMCMBranch) (e : PyError) (h : mkHazardComponentBranch reg sb gbs = .error e) :
    e = .notImplementedError "multiple gmcm branches for a component branch is not implemented" := by
  unfold mkHazardComponentBranch at h
  cases hg : gmcm_hash_digest reg gbs with
  | error e2 =>
    rw [hg] at h
    simp only [Except.error.injEq] at h
    subst h
    exact gmcm_hash_digest_error_shape reg gbs e2 hg
  | ok gd =>
    rw [hg] at h
    exact absurd h (by simp)

theorem mapME_error_mem {α β : Type} (f : α → Except PyError β) (l : List α) (e : PyError)
    (h : mapME f l = .error e) : ∃ a ∈ l, f a = .error e := by
  induction l with
  | nil => exact absurd h (by simp [mapME])
  | cons a as ih =>
    unfold mapME at h
    cases hf : f a with
    | error e2 =>
      rw [hf] at h
      simp only [Except.error.injEq] at h
      exact ⟨a, List.mem_cons_self a as, by rw [hf, h]⟩
    | ok b =>
      rw [hf] at h
      cases hrest : mapME f as with
      | error e2 =>
        rw [hrest] at h
        simp only [Except.error.injEq] at h
        obtain ⟨a2, ha2, hfa2⟩ := ih (by rw [hrest, h])
        exact ⟨a2, List.mem_cons_of_mem a ha2, hfa2⟩
      | ok bs => rw [hrest] at h; exact absurd h (by simp)

theorem mapME_error_of_mem {α β : Type} (f : α → Except PyError β) (l : List α) (a : α)
    (e : PyError) (ha : a ∈ l) (he : f a = .error e) : ∃ e2, mapME f l = .error e2 := by
  induction l with
  | nil => exact absurd ha (by simp)
  | cons x xs ih =>
    unfold mapME
    cases hf : f x with
    | error e2 => exact ⟨e2, rfl⟩
    | ok b =>
      rcases List.mem_cons.mp ha with hax | hax
      · rw [hax] at he; rw [he] at hf; exact absurd hf (by simp)
      · obtain ⟨e2, he2⟩ := ih hax
        exact ⟨e2, by rw [he2]⟩

theorem mapME_ok_forall2 {α β : Type} (f : α → Except PyError β) (l : List α) (l2 : List β)
    (h : mapME f l = .ok l2) : List.Forall₂ (fun a b => f a = .ok b) l l2 := by
  induction l generalizing l2 with
  | nil =>
    unfold mapME at h
    simp only [Except.ok.injEq] at h
    rw [← h]
    exact List.Forall₂.nil
  | cons a as ih =>
    unfold mapME at h
    cases hf : f a with
    | error e => rw [hf] at h; exact absurd h (by simp)
    | ok b =>
      rw [hf] at h
      cases hrest : mapME f as with
      | error e => rw [hrest] at h; exact absurd h (by simp)
      | ok bs =>
        rw [hrest] at h
        simp only [Except.ok.injEq] at h
        rw [← h]
        exact List.Forall₂.cons hf (ih bs hrest)

theorem mapME_ok_of_forall {α β : Type} (f : α → Except PyError β) (l : List α)
    (h : ∀ a ∈ l, ∃ b, f a = .ok b) : ∃ l2, mapME f l = .ok l2 := by
  induction l with
  | nil => exact ⟨[], rfl⟩
  | cons a as ih =>
    obtain ⟨b, hb⟩ := h a (List.mem_cons_self a as)
    obtain ⟨bs, hbs⟩ := ih (fun x hx => h x (List.mem_cons_of_mem a hx))
    exact ⟨b :: bs, by unfold mapME; rw [hb, hbs]⟩

theorem mem_pairProd {α β : Type} (xs : List α) (ys : List β) (x : α) (y : β)
    (hx : x ∈ xs) (hy : y ∈ ys) : (x, y) ∈ pairProd xs ys := by
  unfold pairProd
  rw [List.mem_flatten]
  exact ⟨ys.map (fun y2 => (x, y2)), List.mem_map_of_mem _ hx, List.mem_map_of_mem _ hy⟩

theorem addVec_getD (a b : List ℚ) (j : Nat) (ha : j < a.length) (hb : j < b.length) :
    (addVec a b).getD j 0 = a.getD j 0 + b.getD j 0 := by
  unfold addVec
  have hl : j < (List.zipWith (fun x y => x + y) a b).length := by
    rw [List.length_zipWith]; exact lt_min ha hb
  rw [List.getD_eq_getElem _ _ hl, List.getD_eq_getElem _ _ ha, List.getD_eq_getElem _ _ hb]
  exact List.getElem_zipWith

theorem addVec_length_eq (a b : List ℚ) (h : b.length = a.length) :
    (addVec a b).length = a.length := by
  unfold addVec
  rw [List.length_zipWith, h, min_self]

theorem zerosVec_length (n : Nat) : (zerosVec n).length = n := by
  unfold zerosVec
  exact List.length_replicate n 0

theorem zerosVec_getD (n j : Nat) : (zerosVec n).getD j 0 = 0 := by
  unfold zerosVec
  rcases Nat.lt_or_ge j n with h | h
  · have hl : j < (List.replicate n (0 : ℚ)).length := by
      rw [List.length_replicate]; exact h
    rw [List.getD_eq_getElem _ _ hl]
    exact List.getElem_replicate (0 : ℚ) hl
  · exact List.getD_eq_default _ _ (by rw [List.length_replicate]; exact h)

theorem calcAux_error_of_missing (m : List (String × List ℚ)) (hs : List String) :
    ∀ (rates : List ℚ), (∃ d ∈ hs, m.lookup d = none) →
    ∃ dm, dm ∈ hs ∧ m.lookup dm = none ∧
      calcCompositeRatesAux m hs rates = .error (.keyError dm) := by
  induction hs with
  | nil =>
    intro rates hex
    obtain ⟨d, hd, _⟩ := hex
    exact absurd hd (by simp)
  | cons h hs ih =>
    intro rates hex
    cases hl : m.lookup h with
    | none =>
      refine ⟨h, List.mem_cons_self h hs, hl, ?_⟩
      simp only [calcCompositeRatesAux, dictLookup, hl]
    | some v =>
      obtain ⟨d, hd, hdn⟩ := hex
      have hd2 : d ∈ hs := by
        rcases List.mem_cons.mp hd with h1 | h1
        · rw [h1, hl] at hdn
          exact absurd hdn (by simp)
        · exact h1
      obtain ⟨dm, hdm, hdmn, heq⟩ := ih (addVec rates v) ⟨d, hd2, hdn⟩
      refine ⟨dm, List.mem_cons_of_mem h hdm, hdmn, ?_⟩
      simp only [calcCompositeRatesAux, dictLookup, hl]
      exact heq

theorem calcAux_error_shape (m : List (String × List ℚ)) (hs : List String) :
    ∀ (rates : List ℚ) (e : PyError), calcCompositeRatesAux m hs rates = .error e →
    ∃ dm, e = .keyError dm ∧ m.lookup dm = none ∧ dm ∈ hs := by
  induction hs with
  | nil =>
    intro rates e h
    exact absurd h (by simp [calcCompositeRatesAux])
  | cons h hs ih =>
    intro rates e heq
    cases hl : m.lookup h with
    | none =>
      simp only [calcCompositeRatesAux, dictLookup, hl, Except.error.injEq] at heq
      exact ⟨h, heq.symm, hl, List.mem_cons_self h hs⟩
    | some v =>
      simp only [calcCompositeRatesAux, dictLookup, hl] at heq
      obtain ⟨dm, he, hn, hm⟩ := ih (addVec rates v) e heq
      exact ⟨dm, he, hn, List.mem_cons_of_mem h hm⟩

theorem calcAux_ok_sum (m : List (String × List ℚ)) (f : String → List ℚ) (hs : List String) :
    ∀ (rates : List ℚ),
    (∀ d ∈ hs, m.lookup d = some (f d)) →
    (∀ d ∈ hs, (f d).length = rates.length) →
    ∃ r, calcCompositeRatesAux m hs rates = .ok r ∧ r.length = rates.length ∧
      ∀ j, j < rates.length →
        r.getD j 0 = rates.getD j 0 + (hs.map (fun d => (f d).getD j 0)).sum := by
  induction hs with
  | nil =>
    intro rates _ _
    exact ⟨rates, rfl, rfl, by simp⟩
  | cons h hs ih =>
    intro rates hlook hlen
    have hlh := hlook h (List.mem_cons_self h hs)
    have hlenh := hlen h (List.mem_cons_self h hs)
    have hadd_len : (addVec rates (f h)).length = rates.length :=
      addVec_length_eq rates (f h) hlenh
    obtain ⟨r, hr, hrlen, hsum⟩ := ih (addVec rates (f h))
      (fun d hd => hlook d (List.mem_cons_of_mem h hd))
      (fun d hd => by rw [hadd_len]; exact hlen d (List.mem_cons_of_mem h hd))
    refine ⟨r, ?_, by rw [hrlen, hadd_len], ?_⟩
    · simp only [calcCompositeRatesAux, dictLookup, hlh]
      exact hr
    · intro j hj
      rw [hsum j (by rw [hadd_len]; exact hj)]
      rw [addVec_getD rates (f h) j hj (by rw [hlenh]; exact hj)]
      simp only [List.map_cons, List.sum_cons]
      ring

theorem generate_agg_jobs_all_ok (jobs : List AggJob) (recordCount : AggJob → Nat)
    (nbranches : Nat) (h : ∀ j ∈ jobs, recordCount j = nbranches ∧ recordCount j ≠ 0) :
    generate_agg_jobs jobs recordCount nbranches = (jobs, none) := by
  induction jobs with
  | nil => rfl
  | cons j js ih =>
    obtain ⟨h1, h2⟩ := h j (List.mem_cons_self j js)
    have hb1 : (recordCount j == 0) = false := by simp [beq_iff_eq]; exact h2
    have hb2 : (recordCount j != nbranches) = false := by simp [bne_iff_ne]; exact h1
    simp only [generate_agg_jobs, hb1, hb2, Bool.false_eq_true, if_false]
    rw [ih (fun x hx => h x (List.mem_cons_of_mem j hx))]

theorem forall2_of_forall_mem {α β : Type} {R S : α → β → Prop} :
    ∀ {l1 : List α} {l2 : List β}, List.Forall₂ R l1 l2 →
    (∀ a ∈ l1, ∀ b, R a b → S a b) → List.Forall₂ S l1 l2 := by
  intro l1 l2 h hmem
  induction h with
  | nil => exact .nil
  | cons hab htail ih =>
    exact .cons (hmem _ (List.mem_cons_self _ _) _ hab)
      (ih (fun a ha b hr => hmem a (List.mem_cons_of_mem _ ha) b hr))

/-!
Claim theorems.
-/

/-- C3: for every HazardComponentBranch whose gmcm branch tuple does not
have exactly one element, accessing the gmcm hash digest raises a
NotImplementedError, and hence so does constructing the branch, which
computes hash_digest eagerly; it never silently truncates. -/
theorem C3_component_hash_not_implemented (reg : Registry) (sb : SourceBranch)
    (gbs : List GMCMBranch) (h : gbs.length ≠ 1) :
    gmcm_hash_digest reg gbs =
      .error (.notImplementedError
        "multiple gmcm branches for a component branch is not implemented") ∧
    mkHazardComponentBranch reg sb gbs =
      .error (.notImplementedError
        "multiple gmcm branches for a component branch is not implemented") := by
  constructor
  · have hb : (gbs.length != 1) = true := by simpa [bne_iff_ne] using h
    simp [gmcm_hash_digest, hb]
  · exact mkHazardComponentBranch_len_ne_one reg sb gbs h

/-- Witness for C3 at a concrete two-element gmcm tuple. -/
theorem C3_component_hash_not_implemented_witness :
    gmcm_hash_digest fixReg (fixG4 ++ fixG4) =
      .error (.notImplementedError
        "multiple gmcm branches for a component branch is not implemented") ∧
    mkHazardComponentBranch fixReg ⟨1, ["Active Shallow Crust"], "s1"⟩ (fixG4 ++ fixG4) =
      .error (.notImplementedError
        "multiple gmcm branches for a component branch is not implemented") :=
  C3_component_hash_not_implemented fixReg ⟨1, ["Active Shallow Crust"], "s1"⟩
    (fixG4 ++ fixG4) (by decide)

/-- C5: for every branch hash table and component-rate map containing all
referenced digests (with a common vector length read from the map's first
entry), build_branch_rates returns, row by row, exactly the elementwise
sum of the row's component rate vectors. -/
theorem C5_rate_additivity (table : List (List String)) (m : List (String × List ℚ))
    (f : String → List ℚ) (nlevels : Nat)
    (hm : (m.headD ("", [])).2.length = nlevels) (hmne : m ≠ [])
    (hlook : ∀ row ∈ table, ∀ d ∈ row, m.lookup d = some (f d))
    (hlen : ∀ row ∈ table, ∀ d ∈ row, (f d).length = nlevels) :
    ∃ R, build_branch_rates table m = .ok R ∧ R.length = table.length ∧
      List.Forall₂ (fun (row : List String) (r : List ℚ) => r.length = nlevels ∧
        ∀ j, j < nlevels → r.getD j 0 = (row.map (fun d => (f d).getD j 0)).sum) table R := by
  match m, hmne with
  | (k, v) :: rest, _ =>
    have hv : v.length = nlevels := by simpa using hm
    have hrowp : ∀ row ∈ table, ∃ r,
        calc_composite_rates row ((k, v) :: rest) v.length = .ok r ∧ r.length = nlevels ∧
        ∀ j, j < nlevels → r.getD j 0 = (row.map (fun d => (f d).getD j 0)).sum := by
      intro row hrow
      obtain ⟨r, hr, hrl, hrs⟩ := calcAux_ok_sum ((k, v) :: rest) f row (zerosVec v.length)
        (fun d hd => hlook row hrow d hd)
        (fun d hd => by rw [zerosVec_length, hv]; exact hlen row hrow d hd)
      refine ⟨r, hr, by rw [hrl, zerosVec_length, hv], ?_⟩
      intro j hj
      rw [hrs j (by rw [zerosVec_length, hv]; exact hj), zerosVec_getD]
      exact zero_add _
    obtain ⟨R, hR⟩ := mapME_ok_of_forall
      (fun row => calc_composite_rates row ((k, v) :: rest) v.length) table
      (fun row hr => (hrowp row hr).elim (fun r hr2 => ⟨r, hr2.1⟩))
    have hfa := mapME_ok_forall2 _ table R hR
    refine ⟨R, hR, hfa.length_eq.symm, ?_⟩
    apply forall2_of_forall_mem hfa
    intro row hrow r hok
    obtain ⟨r2, hok2, hl2, hs2⟩ := hrowp row hrow
    rw [hok2] at hok
    simp only [Except.ok.injEq] at hok
    rw [← hok]
    exact ⟨hl2, hs2⟩

/-- Witness for C5: one composite branch whose components carry
i * linspace(0, 1, 10) for i in 0, 1, 2. -/
theorem C5_rate_additivity_witness :
    ∃ R, build_branch_rates fixTableC5 fixMapC5 = .ok R ∧ R.length = fixTableC5.length ∧
      List.Forall₂ (fun (row : List String) (r : List ℚ) => r.length = 10 ∧
        ∀ j, j < 10 → r.getD j 0 = (row.map (fun d => (fixRatesC5 d).getD j 0)).sum)
        fixTableC5 R :=
  C5_rate_additivity fixTableC5 fixMapC5 fixRatesC5 10 (by rfl) (by decide)
    (by intro row hrow; fin_cases hrow; intro d hd; fin_cases hd <;> rfl)
    (by intro row hrow; fin_cases hrow; intro d hd; fin_cases hd <;> rfl)

/-- C6: a digest in a composite branch's hash list that is absent from the
component-rate map makes calc_composite_rates, and hence
build_branch_rates on any table containing that row over a nonempty map,
raise a KeyError rather than treat the missing rate as zero. -/
theorem C6_missing_digest_lookup_error (branch_hashes : List String)
    (m : List (String × List ℚ)) (nlevels : Nat) (d : String)
    (hd : d ∈ branch_hashes) (hmiss : m.lookup d = none) :
    (∃ dm, dm ∈ branch_hashes ∧ m.lookup dm = none ∧
      calc_composite_rates branch_hashes m nlevels = .error (.keyError dm)) ∧
    ∀ table, branch_hashes ∈ table → m ≠ [] →
      ∃ dm2, m.lookup dm2 = none ∧ build_branch_rates table m = .error (.keyError dm2) := by
  constructor
  · exact calcAux_error_of_missing m branch_hashes (zerosVec nlevels) ⟨d, hd, hmiss⟩
  · intro table htab hmne
    match m, hmiss, hmne with
    | (k, v) :: rest, hmiss, _ =>
      obtain ⟨dm, hdm, hdmn, herr⟩ := calcAux_error_of_missing ((k, v) :: rest) branch_hashes
        (zerosVec v.length) ⟨d, hd, hmiss⟩
      obtain ⟨e2, he2⟩ := mapME_error_of_mem
        (fun row => calc_composite_rates row ((k, v) :: rest) v.length) table branch_hashes
        (.keyError dm) htab herr
      obtain ⟨row2, hrow2, herr2⟩ := mapME_error_mem _ table e2 he2
      obtain ⟨dm2, hshape, hn2, _⟩ := calcAux_error_shape ((k, v) :: rest) row2
        (zerosVec v.length) e2 herr2
      refine ⟨dm2, hn2, ?_⟩
      show mapME (fun row => calc_composite_rates row ((k, v) :: rest) v.length) table =
        .error (.keyError dm2)
      rw [he2, hshape]

/-- Witness for C6 at a concrete missing digest. -/
theorem C6_missing_digest_lookup_error_witness :
    (∃ dm, dm ∈ ["d0", "dmiss"] ∧ ([("d0", [(1 : ℚ), 2])]).lookup dm = none ∧
      calc_composite_rates ["d0", "dmiss"] [("d0", [(1 : ℚ), 2])] 2 =
        .error (.keyError dm)) ∧
    ∀ table, ["d0", "dmiss"] ∈ table → ([("d0", [(1 : ℚ), 2])]) ≠ [] →
      ∃ dm2, ([("d0", [(1 : ℚ), 2])]).lookup dm2 = none ∧
        build_branch_rates table [("d0", [(1 : ℚ), 2])] = .error (.keyError dm2) :=
  C6_missing_digest_lookup_error ["d0", "dmiss"] [("d0", [(1 : ℚ), 2])] 2 "dmiss"
    (by decide) (by decide)

/-- C9: HazardLogicTree construction filters only a working copy of the
GMCM tree; the branch-set list object of the input GMCM tree is identical
before and after construction. -/
theorem C9_gmcm_tree_not_mutated (srm : SourceLogicTree) (gmcmPtr : Nat) (st : ListStore)
    (h : gmcmPtr < st.next) :
    ((hazardLogicTreeInitHeap srm gmcmPtr st).2).cells gmcmPtr = st.cells gmcmPtr := by
  have hne : gmcmPtr ≠ st.next := Nat.ne_of_lt h
  simp [hazardLogicTreeInitHeap, allocCell, writeCell, hne]

/-- Witness for C9 at a concrete one-object heap. -/
theorem C9_gmcm_tree_not_mutated_witness :
    ((hazardLogicTreeInitHeap fixSrm1 0
        ⟨fun _ => [⟨"Active Shallow Crust", []⟩], 1⟩).2).cells 0 =
      (⟨fun _ => [⟨"Active Shallow Crust", []⟩], 1⟩ : ListStore).cells 0 :=
  C9_gmcm_tree_not_mutated fixSrm1 0 ⟨fun _ => [⟨"Active Shallow Crust", []⟩], 1⟩
    (by decide)

/-- C10 counterexample: a job whose store record count is wrong is not
counted as a failed job; it aborts the run during job generation, so the
sibling job is never attempted and no failure report is produced. -/
theorem C10_failure_isolation_counterexample :
    (run_aggregation [⟨250, "siteA", "PGA"⟩, ⟨250, "siteB", "PGA"⟩]
        (fun j => if j.location == "siteA" then 3 else 5) 5 (fun _ => .ok ())).report =
      none ∧
    (⟨250, "siteB", "PGA"⟩ : AggJob) ∉
      (run_aggregation [⟨250, "siteA", "PGA"⟩, ⟨250, "siteB", "PGA"⟩]
        (fun j => if j.location == "siteA" then 3 else 5) 5 (fun _ => .ok ())).attempted := by
  decide

/-- C10 amended: an exception raised by a job's execution in a worker is
observed at the dispatch boundary, counted, and does not cancel sibling
jobs or abort the run: when every job passes the record-count checks in
the generator, every enumerated job is attempted and the report counts
exactly the jobs whose futures carry exceptions.  (A record-count error is
instead raised during generation and aborts the run, as the
counterexample shows.) -/
theorem C10_failure_isolation_amended (jobs : List AggJob) (recordCount : AggJob → Nat)
    (nbranches : Nat) (jobResult : AggJob → Except PyError Unit)
    (hgen : ∀ j ∈ jobs, recordCount j = nbranches ∧ recordCount j ≠ 0) :
    run_aggregation jobs recordCount nbranches jobResult =
      { attempted := jobs
        report := some
          { total := jobs.length
            failed := (jobs.filter (fun j => isErr (jobResult j))).length } } := by
  unfold run_aggregation
  rw [generate_agg_jobs_all_ok jobs recordCount nbranches hgen]

/-- Witness for the amended C10: two well-formed jobs, one failing worker;
both jobs are attempted and exactly one failure is counted. -/
theorem C10_failure_isolation_amended_witness :
    run_aggregation [⟨250, "siteA", "PGA"⟩, ⟨250, "siteB", "PGA"⟩] (fun _ => 4) 4
        (fun j => if j.location == "siteA" then .error (.exception "job failed") else .ok ()) =
      { attempted := [⟨250, "siteA", "PGA"⟩, ⟨250, "siteB", "PGA"⟩]
        report := some { total := 2, failed := 1 } } := by
  rw [C10_failure_isolation_amended [⟨250, "siteA", "PGA"⟩, ⟨250, "siteB", "PGA"⟩]
    (fun _ => 4) 4
    (fun j => if j.location == "siteA" then .error (.exception "job failed") else .ok ())
    (by decide)]
  decide

theorem mem_of_mem_listProd {α : Type} :
    ∀ (ls : List (List α)) (g : List α), g ∈ listProd ls → ∀ b ∈ g, ∃ l ∈ ls, b ∈ l := by
  intro ls
  induction ls with
  | nil =>
    intro g hg b hb
    simp only [listProd, List.mem_singleton] at hg
    subst hg
    exact absurd hb (by simp)
  | cons l ls ih =>
    intro g hg b hb
    simp only [listProd, List.mem_flatten, List.mem_map] at hg
    obtain ⟨l2, ⟨x, hx, hl2⟩, hg2⟩ := hg
    rw [← hl2] at hg2
    rw [List.mem_map] at hg2
    obtain ⟨c, hc, hgc⟩ := hg2
    rw [← hgc] at hb
    rcases List.mem_cons.mp hb with hbx | hbc
    · exact ⟨l, List.mem_cons_self l ls, by rw [hbx]; exact hx⟩
    · obtain ⟨l3, hl3, hb3⟩ := ih c hc b hbc
      exact ⟨l3, List.mem_cons_of_mem l hl3, hb3⟩

theorem buildCompositeBranch_error_shape (reg : Registry) (s : SourceCompositeBranch)
    (g : List GMCMBranch) (e : PyError) (h : buildCompositeBranch reg s g = .error e) :
    e = .notImplementedError "multiple gmcm branches for a component branch is not implemented" := by
  unfold buildCompositeBranch at h
  cases hm : mapME (fun srm_branch => mkHazardComponentBranch reg srm_branch
      (matchGmcmBranches srm_branch g)) s.branches with
  | error e2 =>
    rw [hm] at h
    simp only [Except.error.injEq] at h
    subst h
    obtain ⟨a, _, hfa⟩ := mapME_error_mem _ s.branches e2 hm
    exact mkHazardComponentBranch_error_shape reg a (matchGmcmBranches a g) e2 hfa
  | ok bs =>
    rw [hm] at h
    exact absurd h (by simp)

theorem generateCompositeBranches_error_shape (reg : Registry) (srm : SourceLogicTree)
    (gmcm : GMCMLogicTree) (e : PyError)
    (h : generateCompositeBranches reg srm gmcm = .error e) :
    e = .notImplementedError "multiple gmcm branches for a component branch is not implemented" := by
  unfold generateCompositeBranches at h
  obtain ⟨p, _, hp⟩ := mapME_error_mem _ _ e h
  exact buildCompositeBranch_error_shape reg p.1 p.2 e hp

/-- C2 counterexample: the SRM tree fixSrm2 uses the Subduction Interface
region type, which is absent from the GMCM tree fixGmcm2, yet
HazardLogicTree construction does not fail: no error of any kind is
raised and the weights compute normally, the Subduction Interface hazard
contribution being silently dropped. -/
theorem C2_missing_region_counterexample :
    "Subduction Interface" ∈ hazardTrts fixSrm2 ∧
    (∀ bs ∈ fixGmcm2.branch_sets, bs.tectonic_region_type ≠ "Subduction Interface") ∧
    ∃ ws, hazardWeights fixReg fixSrm2 fixGmcm2 = .ok ws := by
  refine ⟨by decide, by decide, ⟨_, rfl⟩⟩

/-- C2 amended: HazardLogicTree.__init__ itself never raises; when every
region type of some source branch of some SRM composite branch is absent
from the GMCM tree (and the filtered GMCM tree still enumerates at least
one composite), the failure surfaces on the first access to the composite
branches - the weights computation, which run_aggregation performs before
any job is scheduled - as a NotImplementedError, not a configuration
error.  When the source branch keeps at least one matched region type, no
error is raised at all, as the counterexample shows. -/
theorem C2_missing_region_amended (reg : Registry) (srm : SourceLogicTree)
    (gmcm : GMCMLogicTree) (s : SourceCompositeBranch) (br : SourceBranch)
    (hs : s ∈ srm.composite_branches) (hbr : br ∈ s.branches)
    (habs : ∀ bs ∈ gmcm.branch_sets, ∀ b ∈ bs.branches,
      b.tectonic_region_type ∉ br.tectonic_region_types)
    (hne : gmcmCompositeBranches (filteredGmcmTree srm gmcm) ≠ []) :
    hazardWeights reg srm gmcm =
      .error (.notImplementedError
        "multiple gmcm branches for a component branch is not implemented") := by
  obtain ⟨g, hg⟩ := List.exists_mem_of_ne_nil _ hne
  have hmatch : matchGmcmBranches br g = [] := by
    rw [matchGmcmBranches, List.filter_eq_nil_iff]
    intro b hb
    obtain ⟨l, hl, hbl⟩ := mem_of_mem_listProd _ g (by
      unfold gmcmCompositeBranches at hg
      exact hg) b hb
    rw [List.mem_map] at hl
    obtain ⟨bs, hbs, hlbs⟩ := hl
    have hbs2 : bs ∈ gmcm.branch_sets := by
      have := hbs
      unfold filteredGmcmTree at this
      exact List.mem_of_mem_filter this
    have hnotin : b.tectonic_region_type ∉ br.tectonic_region_types :=
      habs bs hbs2 b (by rw [hlbs]; exact hbl)
    simpa using hnotin
  have hmk : mkHazardComponentBranch reg br (matchGmcmBranches br g) =
      .error (.notImplementedError
        "multiple gmcm branches for a component branch is not implemented") := by
    rw [hmatch]
    exact mkHazardComponentBranch_len_ne_one reg br [] (by simp)
  have hbuild : ∃ e2, buildCompositeBranch reg s g = .error e2 := by
    obtain ⟨e2, he2⟩ := mapME_error_of_mem
      (fun srm_branch => mkHazardComponentBranch reg srm_branch
        (matchGmcmBranches srm_branch g)) s.branches br _ hbr hmk
    exact ⟨e2, by unfold buildCompositeBranch; rw [he2]⟩
  obtain ⟨e2, he2⟩ := hbuild
  obtain ⟨e3, he3⟩ := mapME_error_of_mem (fun p => buildCompositeBranch reg p.1 p.2)
    (pairProd srm.composite_branches (gmcmCompositeBranches (filteredGmcmTree srm gmcm)))
    (s, g) e2 (mem_pairProd _ _ s g hs hg) he2
  have hgen : generateCompositeBranches reg srm gmcm = .error e3 := he3
  have hshape := generateCompositeBranches_error_shape reg srm gmcm e3 hgen
  unfold hazardWeights
  rw [hgen, hshape]

/-- Witness for the amended C2: a source branch covering only the
Subduction Interface region combined with a crust-only GMCM tree makes
the weights computation raise NotImplementedError. -/
theorem C2_missing_region_amended_witness :
    hazardWeights fixReg fixSrm2b fixGmcm2 =
      .error (.notImplementedError
        "multiple gmcm branches for a component branch is not implemented") :=
  C2_missing_region_amended fixReg fixSrm2b fixGmcm2
    ⟨[⟨1, ["Subduction Interface"], "s1"⟩], 1⟩ ⟨1, ["Subduction Interface"], "s1"⟩
    (by simp [fixSrm2b]) (by simp) (by decide) (by decide)

theorem gmcm_hash_digest_ok_len (reg : Registry) (gbs : List GMCMBranch) (gd : String)
    (h : gmcm_hash_digest reg gbs = .ok gd) : gbs.length = 1 := by
  unfold gmcm_hash_digest at h
  split at h
  · exact absurd h (by simp)
  · rename_i hcond
    rw [bne_iff_ne] at hcond
    exact not_not.mp hcond

theorem mkHazardComponentBranch_ok_inv (reg : Registry) (sb : SourceBranch)
    (gbs : List GMCMBranch) (hb : HazardComponentBranch)
    (h : mkHazardComponentBranch reg sb gbs = .ok hb) :
    hb.gmcm_branches = gbs ∧ gbs.length = 1 ∧
      hb.weight = (sb.weight :: gbs.map (fun b => b.weight)).prod := by
  unfold mkHazardComponentBranch at h
  cases hg : gmcm_hash_digest reg gbs with
  | error e => rw [hg] at h; exact absurd h (by simp)
  | ok gd =>
    rw [hg] at h
    simp only [Except.ok.injEq] at h
    subst h
    exact ⟨rfl, gmcm_hash_digest_ok_len reg gbs gd hg, rfl⟩

theorem forall2_exists_left {α β : Type} {R : α → β → Prop} :
    ∀ {l1 : List α} {l2 : List β}, List.Forall₂ R l1 l2 → ∀ b ∈ l2, ∃ a ∈ l1, R a b := by
  intro l1 l2 h
  induction h with
  | nil =>
    intro b hb
    exact absurd hb (by simp)
  | @cons a b l1t l2t hab htail ih =>
    intro x hx
    rcases List.mem_cons.mp hx with h1 | h1
    · exact ⟨a, List.mem_cons_self _ _, h1 ▸ hab⟩
    · obtain ⟨a2, ha2, hr⟩ := ih x h1
      exact ⟨a2, List.mem_cons_of_mem _ ha2, hr⟩

theorem any_congr_mem {α : Type} (l : List α) (f g : α → Bool)
    (h : ∀ x ∈ l, f x = g x) : l.any f = l.any g := by
  induction l with
  | nil => rfl
  | cons a as ih =>
    simp only [List.any_cons]
    rw [h a (List.mem_cons_self a as), ih (fun x hx => h x (List.mem_cons_of_mem a hx))]

theorem foldl_dedup_congr {α : Type} (p q : α → α → Bool) :
    ∀ (l acc : List α), (∀ a ∈ l, ∀ b, b ∈ acc ∨ b ∈ l → p a b = q a b) →
      l.foldl (fun gs g => if gs.any (fun x => p g x) then gs else gs ++ [g]) acc =
      l.foldl (fun gs g => if gs.any (fun x => q g x) then gs else gs ++ [g]) acc := by
  intro l
  induction l with
  | nil => intro acc _; rfl
  | cons g gs ih =>
    intro acc h
    have hany : acc.any (fun x => p g x) = acc.any (fun x => q g x) :=
      any_congr_mem acc _ _ (fun x hx =>
        h g (List.mem_cons_self g gs) x (Or.inl hx))
    simp only [List.foldl_cons, hany]
    by_cases hc : acc.any (fun x => q g x) = true
    · rw [if_pos hc]
      exact ih acc (fun a ha b hb =>
        h a (List.mem_cons_of_mem g ha) b
          (hb.imp id (fun hbl => List.mem_cons_of_mem g hbl)))
    · rw [if_neg hc]
      exact ih (acc ++ [g]) (fun a ha b hb => by
        rcases hb with hb | hb
        · rcases List.mem_append.mp hb with hb2 | hb2
          · exact h a (List.mem_cons_of_mem g ha) b (Or.inl hb2)
          · rw [List.mem_singleton] at hb2
            exact h a (List.mem_cons_of_mem g ha) b
              (Or.inr (hb2 ▸ List.mem_cons_self g gs))
        · exact h a (List.mem_cons_of_mem g ha) b (Or.inr (List.mem_cons_of_mem g hb)))

theorem uniqueGsims_eq_foldl (branches : List HazardComponentBranch) :
    uniqueGsims branches =
      ((branches.map (fun b => b.gmcm_branches)).flatten).foldl
        (fun gs gsim => if gs.any (fun x => pyEq gsim x) then gs else gs ++ [gsim]) [] := by
  unfold uniqueGsims
  rw [List.foldl_flatten, List.foldl_map]

theorem refUniqueGsims_eq_foldl (gsims : List GMCMBranch) :
    refUniqueGsims gsims =
      gsims.foldl (fun gs gsim => if gs.any (fun x => x.ref == gsim.ref) then gs
        else gs ++ [gsim]) [] := rfl

theorem matched_singleton (reg : Registry) (g : List GMCMBranch) (br : SourceBranch)
    (hb : HazardComponentBranch)
    (h : mkHazardComponentBranch reg br (matchGmcmBranches br g) = .ok hb) :
    ∃ x, matchGmcmBranches br g = [x] ∧ hb.gmcm_branches = [x] := by
  obtain ⟨heq, hlen, _⟩ := mkHazardComponentBranch_ok_inv reg br _ hb h
  obtain ⟨x, hx⟩ := List.length_eq_one.mp hlen
  exact ⟨x, hx, by rw [heq, hx]⟩

theorem flattened_pyEq_eq_refEq (reg : Registry) (g : List GMCMBranch)
    (branches : List SourceBranch) (hbranches : List HazardComponentBranch)
    (hfa : List.Forall₂ (fun br hb => mkHazardComponentBranch reg br
      (matchGmcmBranches br g) = .ok hb) branches hbranches)
    (a : GMCMBranch) (ha : a ∈ (hbranches.map (fun b => b.gmcm_branches)).flatten)
    (b : GMCMBranch) (hbm : b ∈ (hbranches.map (fun b => b.gmcm_branches)).flatten) :
    pyEq a b = (b.ref == a.ref) := by
  rw [List.mem_flatten] at ha hbm
  obtain ⟨la, hla, hala⟩ := ha
  rw [List.mem_map] at hla
  obtain ⟨hba, hhba, hlaeq⟩ := hla
  subst hlaeq
  obtain ⟨bra, _, hmka⟩ := forall2_exists_left hfa hba hhba
  obtain ⟨xa, hxa_match, hxa_gb⟩ := matched_singleton reg g bra hba hmka
  rw [hxa_gb, List.mem_singleton] at hala
  subst hala
  obtain ⟨lb, hlb, hblb⟩ := hbm
  rw [List.mem_map] at hlb
  obtain ⟨hbb, hhbb, hlbeq⟩ := hlb
  subst hlbeq
  obtain ⟨brb, _, hmkb⟩ := forall2_exists_left hfa hbb hhbb
  obtain ⟨xb, hxb_match, hxb_gb⟩ := matched_singleton reg g brb hbb hmkb
  rw [hxb_gb, List.mem_singleton] at hblb
  subst hblb
  by_cases href : a.ref = b.ref
  · simp [pyEq, href]
  · have h2 : (b.ref == a.ref) = false := by
      simp only [beq_eq_false_iff_ne, ne_eq]
      exact fun hcon => href hcon.symm
    rw [h2]
    unfold pyEq
    have h1 : (a.ref == b.ref) = false := by
      simp only [beq_eq_false_iff_ne, ne_eq]
      exact href
    rw [h1, Bool.false_or]
    by_contra hcon
    have htrue : (a.weight == b.weight && a.tectonic_region_type == b.tectonic_region_type &&
        a.registry_identity == b.registry_identity) = true := by
      revert hcon
      cases a.weight == b.weight && a.tectonic_region_type == b.tectonic_region_type &&
        a.registry_identity == b.registry_identity <;> simp
    have htrt : a.tectonic_region_type = b.tectonic_region_type := by
      simp only [Bool.and_eq_true, beq_iff_eq] at htrue
      exact htrue.1.2
    have hxa_in : a ∈ matchGmcmBranches bra g := by
      rw [hxa_match]
      exact List.mem_singleton.mpr rfl
    unfold matchGmcmBranches at hxa_in
    rw [List.mem_filter] at hxa_in
    have hxb_in : b ∈ matchGmcmBranches brb g := by
      rw [hxb_match]
      exact List.mem_singleton.mpr rfl
    unfold matchGmcmBranches at hxb_in
    rw [List.mem_filter] at hxb_in
    have hxb_pa : (bra.tectonic_region_types.contains b.tectonic_region_type) = true := by
      rw [← htrt]
      exact hxa_in.2
    have hbmem : b ∈ matchGmcmBranches bra g := by
      unfold matchGmcmBranches
      rw [List.mem_filter]
      exact ⟨hxb_in.1, hxb_pa⟩
    rw [hxa_match, List.mem_singleton] at hbmem
    exact href (by rw [hbmem])

/-- C4: for every HazardCompositeBranch produced by the composite-branch
generation, its weight equals the SRM composite branch's own weight,
carried forward verbatim rather than recomputed from component weights,
times the product of the weights of its unique GMCM branches, uniqueness
determined by object identity, so a ground-motion model reused across
regions is counted once. -/
theorem C4_composite_weight (reg : Registry) (s : SourceCompositeBranch)
    (g : List GMCMBranch) (c : HazardCompositeBranch)
    (h : buildCompositeBranch reg s g = .ok c) :
    c.weight = s.weight *
      ((refUniqueGsims ((c.branches.map (fun b => b.gmcm_branches)).flatten)).map
        (fun gb => gb.weight)).prod := by
  unfold buildCompositeBranch at h
  cases hm : mapME (fun srm_branch => mkHazardComponentBranch reg srm_branch
      (matchGmcmBranches srm_branch g)) s.branches with
  | error e => rw [hm] at h; exact absurd h (by simp)
  | ok hbranches =>
    rw [hm] at h
    simp only [Except.ok.injEq] at h
    subst h
    have hfa := mapME_ok_forall2 _ _ _ hm
    simp only [mkHazardCompositeBranch]
    rw [uniqueGsims_eq_foldl, refUniqueGsims_eq_foldl]
    rw [foldl_dedup_congr pyEq (fun gsim x => x.ref == gsim.ref)
      ((hbranches.map (fun b => b.gmcm_branches)).flatten) []
      (fun a haf b hbf => by
        rcases hbf with hbf | hbf
        · exact absurd hbf (by simp)
        · exact flattened_pyEq_eq_refEq reg g s.branches hbranches hfa a haf b hbf)]
    exact mul_comm _ _

/-- Witness for C4: a concrete successful composite build whose weight
satisfies the identity-unique product formula. -/
theorem C4_composite_weight_witness :
    ∃ c, buildCompositeBranch fixReg fixS4 fixG4 = .ok c ∧
      c.weight = fixS4.weight *
        ((refUniqueGsims ((c.branches.map (fun b => b.gmcm_branches)).flatten)).map
          (fun gb => gb.weight)).prod := by
  refine ⟨_, rfl, C4_composite_weight fixReg fixS4 fixG4 _ rfl⟩

theorem getD_range_map {α : Type} (n : Nat) (f : Nat → α) (j : Nat) (d : α) (hj : j < n) :
    (((List.range n).map f).getD j d) = f j := by
  have hl : j < ((List.range n).map f).length := by simpa using hj
  rw [List.getD_eq_getElem _ _ hl, List.getElem_map, List.getElem_range]

theorem getD_zipWith_lt {α β γ : Type} (f : α → β → γ) (l1 : List α) (l2 : List β)
    (j : Nat) (d1 : α) (d2 : β) (d3 : γ) (h1 : j < l1.length) (h2 : j < l2.length) :
    (List.zipWith f l1 l2).getD j d3 = f (l1.getD j d1) (l2.getD j d2) := by
  have hl : j < (List.zipWith f l1 l2).length := by
    rw [List.length_zipWith]
    exact lt_min h1 h2
  rw [List.getD_eq_getElem _ _ hl, List.getD_eq_getElem _ _ h1, List.getD_eq_getElem _ _ h2]
  exact List.getElem_zipWith

theorem indexTok_eq_some_getD (l : List String) (v : String) (k : Nat)
    (h : indexTok l v = some k) : k < l.length ∧ l.getD k "" = v := by
  induction l generalizing k with
  | nil => exact absurd h (by simp [indexTok])
  | cons t ts ih =>
    unfold indexTok at h
    by_cases ht : (t == v) = true
    · rw [if_pos ht] at h
      simp only [Option.some.injEq] at h
      subst h
      exact ⟨by simp, by simpa [List.getD] using (beq_iff_eq.mp ht)⟩
    · rw [if_neg ht] at h
      rw [Option.map_eq_some'] at h
      obtain ⟨k2, hk2, hkk⟩ := h
      obtain ⟨hlt, hval⟩ := ih k2 hk2
      subst hkk
      exact ⟨by simpa using hlt, by simpa [List.getD] using hval⟩

theorem indexTok_of_nodup (l : List String) (v : String) (k : Nat)
    (hn : l.Nodup) (hk : k < l.length) (hv : l.getD k "" = v) : indexTok l v = some k := by
  induction l generalizing k with
  | nil => exact absurd hk (by simp)
  | cons t ts ih =>
    cases k with
    | zero =>
      have ht : t = v := by simpa [List.getD] using hv
      unfold indexTok
      rw [if_pos (beq_iff_eq.mpr ht)]
    | succ k2 =>
      have hk2 : k2 < ts.length := by simpa using hk
      have hv2 : ts.getD k2 "" = v := by simpa [List.getD] using hv
      have htn : t ≠ v := by
        intro hc
        have hmem : v ∈ ts := by
          rw [← hv2, List.getD_eq_getElem _ _ hk2]
          exact List.getElem_mem hk2
        rw [hc] at hn
        exact (List.nodup_cons.mp hn).1 hmem
      unfold indexTok
      rw [if_neg (by simpa using htn)]
      rw [ih k2 (List.nodup_cons.mp hn).2 hk2 hv2]
      rfl

/-- C8: whenever the weighted mean of an intensity level column is exactly
zero, the cov row returned by calculate_aggs is exactly zero at that
level, not NaN or infinity. -/
theorem C8_zero_mean_cov (branch_rates : List (List ℚ)) (weights : List ℚ)
    (agg_types : List String) (k j : Nat)
    (hk : indexTok agg_types "cov" = some k)
    (hj : j < (branch_rates.headD []).length)
    (hmean : weightedMeanAt branch_rates weights j = 0) :
    ∃ covRow, (calculate_aggs branch_rates weights agg_types).getD k none = some covRow ∧
      covRow.getD j 0 = 0 := by
  obtain ⟨hklen, hkval⟩ := indexTok_eq_some_getD _ _ _ hk
  have hmean_ne : (indexTok agg_types "mean" == some k) = false := by
    rw [beq_eq_false_iff_ne]
    intro hc
    have h2 := (indexTok_eq_some_getD _ _ _ hc).2
    rw [hkval] at h2
    exact absurd h2 (by decide)
  have hstd_ne : (indexTok agg_types "std" == some k) = false := by
    rw [beq_eq_false_iff_ne]
    intro hc
    have h2 := (indexTok_eq_some_getD _ _ _ hc).2
    rw [hkval] at h2
    exact absurd h2 (by decide)
  have hcov_eq : (indexTok agg_types "cov" == some k) = true := by
    rw [beq_iff_eq]
    exact hk
  simp only [calculate_aggs]
  rw [getD_range_map _ _ k none hklen]
  rw [hmean_ne, hstd_ne, hcov_eq]
  simp only [Bool.false_eq_true, if_false, if_true]
  refine ⟨_, rfl, ?_⟩
  have hml : j < (weighted_mean branch_rates weights).length := by
    simpa [weighted_mean] using hj
  have hsl : j < (weighted_std branch_rates weights).length := by
    simpa [weighted_std] using hj
  unfold cov_vec
  rw [getD_zipWith_lt covAt _ _ j 0 0 0 hml hsl]
  have hmj : (weighted_mean branch_rates weights).getD j 0 = 0 := by
    rw [show weighted_mean branch_rates weights =
      (List.range (branch_rates.headD []).length).map
        (weightedMeanAt branch_rates weights) from rfl]
    rw [getD_range_map _ _ j 0 hj]
    exact hmean
  rw [hmj]
  simp [covAt]

/-- Witness for C8: an all-zero first column yields cov exactly zero at
that level. -/
theorem C8_zero_mean_cov_witness :
    ∃ covRow, (calculate_aggs [[0, 1], [0, 2]] [1, 1] ["mean", "cov"]).getD 1 none =
      some covRow ∧ covRow.getD 0 0 = 0 :=
  C8_zero_mean_cov [[0, 1], [0, 2]] [1, 1] ["mean", "cov"] 1 0 (by rfl) (by decide)
    (by norm_num [weightedMeanAt])

theorem getD_map_lt {α β : Type} (f : α → β) (l : List α) (k : Nat) (d1 : α) (d2 : β)
    (h : k < l.length) : (l.map f).getD k d2 = f (l.getD k d1) := by
  have h2 : k < (l.map f).length := by simpa using h
  rw [List.getD_eq_getElem _ _ h2, List.getD_eq_getElem _ _ h, List.getElem_map]

theorem filter_take_getD (p : String → Bool) :
    ∀ (l : List String) (j : Nat), j < l.length → p (l.getD j "") = true →
    ((l.filter p).getD (((l.take j).filter p).length) "" = l.getD j "" ∧
      ((l.take j).filter p).length < (l.filter p).length) := by
  intro l
  induction l with
  | nil =>
    intro j hj _
    exact absurd hj (by simp)
  | cons t ts ih =>
    intro j hj hp
    cases j with
    | zero =>
      have hpt : p t = true := by simpa [List.getD] using hp
      constructor
      · simp [List.filter_cons, hpt, List.getD]
      · simp [List.filter_cons, hpt]
    | succ j2 =>
      have hj2 : j2 < ts.length := by simpa using hj
      have hp2 : p (ts.getD j2 "") = true := by simpa [List.getD] using hp
      obtain ⟨ih1, ih2⟩ := ih j2 hj2 hp2
      by_cases hpt : p t = true
      · constructor
        · simp only [List.take_succ_cons, List.filter_cons, hpt, if_pos, List.length_cons,
            List.getD_cons_succ, List.getD_cons_zero]
          simpa using ih1
        · simp only [List.take_succ_cons, List.filter_cons, hpt, if_pos, List.length_cons]
          simpa using Nat.succ_lt_succ ih2
      · constructor
        · simp only [List.take_succ_cons, List.filter_cons, hpt, List.getD_cons_succ]
          simpa [List.filter_cons, hpt] using ih1
        · simp only [List.take_succ_cons, List.filter_cons, hpt]
          simpa [List.filter_cons, hpt] using ih2

theorem calculate_aggs_row (branch_rates : List (List ℚ)) (weights : List ℚ)
    (ats : List String) (hn : ats.Nodup) (j : Nat) (hj : j < ats.length) :
    (calculate_aggs branch_rates weights ats).getD j none =
      tokRow branch_rates weights (ats.getD j "") := by
  simp only [calculate_aggs]
  rw [getD_range_map _ _ j none hj]
  unfold tokRow
  have hcond : ∀ v, (indexTok ats v == some j) = (ats.getD j "" == v) := by
    intro v
    by_cases hv : ats.getD j "" = v
    · rw [show (indexTok ats v == some j) = true from by
        rw [beq_iff_eq]; exact indexTok_of_nodup ats v j hn hj hv]
      rw [show (ats.getD j "" == v) = true from by rw [beq_iff_eq]; exact hv]
    · rw [show (indexTok ats v == some j) = false from by
        rw [beq_eq_false_iff_ne]
        intro hc
        exact hv (indexTok_eq_some_getD _ _ _ hc).2]
      rw [show (ats.getD j "" == v) = false from by
        rw [beq_eq_false_iff_ne]; exact hv]
  simp only [hcond]
  split_ifs with h1 h2 h3 h4
  · rfl
  · rfl
  · rfl
  · obtain ⟨hfv, hflt⟩ := filter_take_getD is_float ats j hj h4
    rw [getD_map_lt (quantileRow branch_rates weights) _ _ (floatOfToken "") []
      (by simpa using hflt)]
    rw [getD_map_lt floatOfToken _ _ "" (floatOfToken "") hflt]
    rw [hfv]
  · rfl

/-- C7: for every branch-rates array, weights array and pair of valid
duplicate-free agg_types lists, calculate_aggs assigns to each position
the row determined by that position's token, the rates and the weights
alone; hence permuting the agg_types list permutes the output rows
identically. -/
theorem C7_agg_order_invariance (branch_rates : List (List ℚ)) (weights : List ℚ)
    (ats1 ats2 : List String)
    (hv1 : ∀ t ∈ ats1, validTok t = true) (hn1 : ats1.Nodup)
    (hv2 : ∀ t ∈ ats2, validTok t = true) (hn2 : ats2.Nodup) :
    (calculate_aggs branch_rates weights ats1).length = ats1.length ∧
    (calculate_aggs branch_rates weights ats2).length = ats2.length ∧
    ∀ i1 i2, i1 < ats1.length → i2 < ats2.length →
      ats1.getD i1 "" = ats2.getD i2 "" →
      (calculate_aggs branch_rates weights ats1).getD i1 none =
        (calculate_aggs branch_rates weights ats2).getD i2 none := by
  refine ⟨by simp [calculate_aggs], by simp [calculate_aggs], ?_⟩
  intro i1 i2 h1 h2 heq
  rw [calculate_aggs_row branch_rates weights ats1 hn1 i1 h1,
    calculate_aggs_row branch_rates weights ats2 hn2 i2 h2, heq]

theorem validTok_half : validTok "0.5" = true := by
  have hval : floatOfToken "0.5" = ((0 : ℕ) : ℚ) + ((5 : ℕ) : ℚ) / (10 : ℚ) ^ 1 := rfl
  unfold validTok
  rw [show ("0.5" == "mean") = false from rfl]
  rw [show ("0.5" == "std") = false from rfl]
  rw [show ("0.5" == "cov") = false from rfl]
  rw [show is_float "0.5" = true from rfl]
  rw [hval]
  simp only [Bool.false_or, Bool.true_and, Bool.and_eq_true, decide_eq_true_eq]
  norm_num

/-- Witness for C7: computing mean then the median and the reverse order
yields the same rows, transposed. -/
theorem C7_agg_order_invariance_witness :
    (calculate_aggs fixBr7 fixW7 ["mean", "0.5"]).getD 0 none =
      (calculate_aggs fixBr7 fixW7 ["0.5", "mean"]).getD 1 none :=
  (C7_agg_order_invariance fixBr7 fixW7 ["mean", "0.5"] ["0.5", "mean"]
    (by
      intro t ht
      fin_cases ht
      · rfl
      · exact validTok_half)
    (by decide)
    (by
      intro t ht
      fin_cases ht
      · exact validTok_half
      · rfl)
    (by decide)).2.2 0 1 (by decide) (by decide) (by decide)

theorem pyEq_iff (a b : GMCMBranch) : pyEq a b = true ↔
    (a.ref = b.ref ∨ (a.weight = b.weight ∧ a.tectonic_region_type = b.tectonic_region_type ∧
      a.registry_identity = b.registry_identity)) := by
  simp [pyEq, Bool.or_eq_true, Bool.and_eq_true, beq_iff_eq, and_assoc]

theorem pyEq_refl (a : GMCMBranch) : pyEq a a = true := by
  rw [pyEq_iff]
  exact Or.inl rfl

theorem pyEq_symm_false (a b : GMCMBranch) (h : pyEq a b = false) : pyEq b a = false := by
  by_contra hc
  have ht : pyEq b a = true := by revert hc; cases pyEq b a <;> simp
  rw [pyEq_iff] at ht
  have h2 : pyEq a b = true := by
    rw [pyEq_iff]
    rcases ht with h1 | ⟨h1, h2, h3⟩
    · exact Or.inl h1.symm
    · exact Or.inr ⟨h1.symm, h2.symm, h3.symm⟩
  rw [h] at h2
  exact absurd h2 (by decide)

theorem forall2_exists_right {α β : Type} {R : α → β → Prop} :
    ∀ {l1 : List α} {l2 : List β}, List.Forall₂ R l1 l2 → ∀ a ∈ l1, ∃ b ∈ l2, R a b := by
  intro l1 l2 h
  induction h with
  | nil =>
    intro a ha
    exact absurd ha (by simp)
  | @cons a b t1 t2 hab ht ih =>
    intro x hx
    rcases List.mem_cons.mp hx with h1 | h1
    · exact ⟨b, List.mem_cons_self _ _, h1 ▸ hab⟩
    · obtain ⟨b2, hb2, hr⟩ := ih x h1
      exact ⟨b2, List.mem_cons_of_mem _ hb2, hr⟩

theorem forall2_mem_imp {α β : Type} {R S : α → β → Prop} :
    ∀ {l1 : List α} {l2 : List β}, List.Forall₂ R l1 l2 →
    (∀ a ∈ l1, ∀ b ∈ l2, R a b → S a b) → List.Forall₂ S l1 l2 := by
  intro l1 l2 h
  induction h with
  | nil => intro _; exact .nil
  | @cons a b t1 t2 hab ht ih =>
    intro hmem
    exact .cons (hmem a (List.mem_cons_self _ _) b (List.mem_cons_self _ _) hab)
      (ih (fun x hx y hy hr =>
        hmem x (List.mem_cons_of_mem _ hx) y (List.mem_cons_of_mem _ hy) hr))

theorem forall2_pairwise {α β : Type} {R : α → β → Prop} {P : β → β → Prop} {Q : α → α → Prop}
    (hcompat : ∀ a b a2 b2, R a b → R a2 b2 → P b b2 → Q a a2) :
    ∀ {l1 : List α} {l2 : List β}, List.Forall₂ R l1 l2 → List.Pairwise P l2 →
      List.Pairwise Q l1 := by
  intro l1 l2 hf
  induction hf with
  | nil => intro _; exact .nil
  | @cons a b t1 t2 hab ht ih =>
    intro hp
    rcases List.pairwise_cons.mp hp with ⟨hhead, htail⟩
    refine List.Pairwise.cons ?_ (ih htail)
    intro y hy
    obtain ⟨b2, hb2, hr2⟩ := forall2_exists_right ht y hy
    exact hcompat a b y b2 hab hr2 (hhead b2 hb2)

theorem forall2_filter {α β : Type} {R : α → β → Prop} (p : α → Bool) (q : β → Bool)
    (hpq : ∀ a b, R a b → p a = q b) :
    ∀ {l1 : List α} {l2 : List β}, List.Forall₂ R l1 l2 →
      List.Forall₂ R (l1.filter p) (l2.filter q) := by
  intro l1 l2 h
  induction h with
  | nil => exact .nil
  | @cons a b t1 t2 hab ht ih =>
    rw [List.filter_cons, List.filter_cons, hpq a b hab]
    by_cases hq : q b = true
    · rw [if_pos hq, if_pos hq]
      exact .cons hab ih
    · rw [if_neg hq, if_neg hq]
      exact ih

theorem listProd_forall2 {α : Type} : ∀ (ls : List (List α)) (g : List α),
    g ∈ listProd ls → List.Forall₂ (fun x l => x ∈ l) g ls := by
  intro ls
  induction ls with
  | nil =>
    intro g hg
    simp only [listProd, List.mem_singleton] at hg
    subst hg
    exact .nil
  | cons l ls ih =>
    intro g hg
    simp only [listProd, List.mem_flatten, List.mem_map] at hg
    obtain ⟨l2, ⟨x, hx, hl2⟩, hg2⟩ := hg
    rw [← hl2, List.mem_map] at hg2
    obtain ⟨c, hc, hgc⟩ := hg2
    subst hgc
    exact .cons hx (ih c hc)

theorem listProd_sum_prod {α : Type} (w : α → ℚ) : ∀ (ls : List (List α)),
    ((listProd ls).map (fun c => (c.map w).prod)).sum =
      (ls.map (fun l => (l.map w).sum)).prod := by
  intro ls
  induction ls with
  | nil => simp [listProd]
  | cons l ls ih =>
    simp only [listProd, List.map_cons, List.prod_cons]
    rw [List.map_flatten, List.sum_flatten, List.map_map, List.map_map]
    have hcomp : ∀ x ∈ l,
        ((List.sum ∘ List.map (fun c => (List.map w c).prod)) ∘
          (fun x => (listProd ls).map (fun c => x :: c))) x =
        w x * ((listProd ls).map (fun c => (List.map w c).prod)).sum := by
      intro x _
      show (List.map (fun c => (List.map w c).prod) ((listProd ls).map (fun c => x :: c))).sum = _
      rw [List.map_map]
      have heq : ((fun c => (List.map w c).prod) ∘ (fun c => x :: c)) =
          (fun c => w x * (List.map w c).prod) := by
        funext c
        simp [List.prod_cons]
      rw [heq, List.sum_map_mul_left]
    rw [List.map_congr_left hcomp, List.sum_map_mul_right, ih]

theorem pairProd_sum {α β : Type} (f : α → ℚ) (h2 : β → ℚ) (ys : List β) :
    ∀ (xs : List α),
    ((pairProd xs ys).map (fun p => f p.1 * h2 p.2)).sum = (xs.map f).sum * (ys.map h2).sum := by
  intro xs
  induction xs with
  | nil => simp [pairProd]
  | cons x xs ih =>
    simp only [pairProd, List.map_cons, List.flatten_cons, List.map_append, List.sum_append]
    rw [List.map_map]
    have heq : ((fun p : α × β => f p.1 * h2 p.2) ∘ (fun y => (x, y))) =
        (fun y => f x * h2 y) := by
      funext y
      rfl
    rw [heq, List.sum_map_mul_left]
    simp only [pairProd] at ih
    rw [ih, List.sum_cons]
    ring

theorem pairProd_mem_inv {α β : Type} (xs : List α) (ys : List β) (p : α × β)
    (hp : p ∈ pairProd xs ys) : p.1 ∈ xs ∧ p.2 ∈ ys := by
  unfold pairProd at hp
  rw [List.mem_flatten] at hp
  obtain ⟨l, hl, hpl⟩ := hp
  rw [List.mem_map] at hl
  obtain ⟨x, hx, hlx⟩ := hl
  rw [← hlx, List.mem_map] at hpl
  obtain ⟨y, hy, hyp⟩ := hpl
  subst hyp
  exact ⟨hx, hy⟩

theorem dedupFold_acc_sub {α : Type} (p : α → α → Bool) :
    ∀ (l acc : List α) (x : α),
      x ∈ l.foldl (fun gs g => if gs.any (fun y => p g y) then gs else gs ++ [g]) acc →
      x ∈ acc ∨ x ∈ l := by
  intro l
  induction l with
  | nil =>
    intro acc x hx
    exact Or.inl hx
  | cons g gs ih =>
    intro acc x hx
    simp only [List.foldl_cons] at hx
    by_cases hc : acc.any (fun y => p g y) = true
    · rw [if_pos hc] at hx
      rcases ih acc x hx with h1 | h1
      · exact Or.inl h1
      · exact Or.inr (List.mem_cons_of_mem g h1)
    · rw [if_neg hc] at hx
      rcases ih (acc ++ [g]) x hx with h1 | h1
      · rcases List.mem_append.mp h1 with h2 | h2
        · exact Or.inl h2
        · exact Or.inr (by rw [List.mem_singleton.mp h2]; exact List.mem_cons_self g gs)
      · exact Or.inr (List.mem_cons_of_mem g h1)

theorem dedupFold_grow {α : Type} (p : α → α → Bool) :
    ∀ (l acc : List α) (x : α), x ∈ acc →
      x ∈ l.foldl (fun gs g => if gs.any (fun y => p g y) then gs else gs ++ [g]) acc := by
  intro l
  induction l with
  | nil =>
    intro acc x hx
    exact hx
  | cons g gs ih =>
    intro acc x hx
    simp only [List.foldl_cons]
    by_cases hc : acc.any (fun y => p g y) = true
    · rw [if_pos hc]
      exact ih acc x hx
    · rw [if_neg hc]
      exact ih (acc ++ [g]) x (List.mem_append_left _ hx)

theorem dedupFold_mem {α : Type} (p : α → α → Bool) (L : List α)
    (heq : ∀ a ∈ L, ∀ b ∈ L, (p a b = true ↔ a = b)) :
    ∀ (l acc : List α), l ⊆ L → acc ⊆ L → ∀ x ∈ l,
      x ∈ l.foldl (fun gs g => if gs.any (fun y => p g y) then gs else gs ++ [g]) acc := by
  intro l
  induction l with
  | nil =>
    intro acc _ _ x hx
    exact absurd hx (by simp)
  | cons g gs ih =>
    intro acc hl hacc x hx
    have hgs : gs ⊆ L := fun {a} ha => hl (List.mem_cons_of_mem g ha)
    have hgL : g ∈ L := hl (List.mem_cons_self g gs)
    simp only [List.foldl_cons]
    by_cases hc : acc.any (fun y => p g y) = true
    · rw [if_pos hc]
      rcases List.mem_cons.mp hx with h1 | h1
      · obtain ⟨y, hy, hpy⟩ := List.any_eq_true.mp hc
        have hyg : g = y := (heq g hgL y (hacc hy)).mp hpy
        exact dedupFold_grow p gs acc x (by rw [h1, hyg]; exact hy)
      · exact ih acc hgs hacc x h1
    · rw [if_neg hc]
      rcases List.mem_cons.mp hx with h1 | h1
      · exact dedupFold_grow p gs (acc ++ [g]) x
          (by rw [h1]; exact List.mem_append_right _ (List.mem_singleton.mpr rfl))
      · refine ih (acc ++ [g]) hgs ?_ x h1
        intro y hy
        rcases List.mem_append.mp hy with h2 | h2
        · exact hacc h2
        · rw [List.mem_singleton.mp h2]
          exact hgL

theorem dedupFold_nodup {α : Type} (p : α → α → Bool) (L : List α)
    (heq : ∀ a ∈ L, ∀ b ∈ L, (p a b = true ↔ a = b)) :
    ∀ (l acc : List α), l ⊆ L → acc ⊆ L → acc.Nodup →
      (l.foldl (fun gs g => if gs.any (fun y => p g y) then gs else gs ++ [g]) acc).Nodup := by
  intro l
  induction l with
  | nil =>
    intro acc _ _ hnd
    exact hnd
  | cons g gs ih =>
    intro acc hl hacc hnd
    have hgs : gs ⊆ L := fun {a} ha => hl (List.mem_cons_of_mem g ha)
    have hgL : g ∈ L := hl (List.mem_cons_self g gs)
    simp only [List.foldl_cons]
    by_cases hc : acc.any (fun y => p g y) = true
    · rw [if_pos hc]
      exact ih acc hgs hacc hnd
    · rw [if_neg hc]
      have hgacc : g ∉ acc := by
        intro hmem
        exact hc (List.any_eq_true.mpr ⟨g, hmem, (heq g hgL g hgL).mpr rfl⟩)
      refine ih (acc ++ [g]) hgs ?_ ?_
      · intro y hy
        rcases List.mem_append.mp hy with h2 | h2
        · exact hacc h2
        · rw [List.mem_singleton.mp h2]
          exact hgL
      · rw [List.nodup_append]
        exact ⟨hnd, List.nodup_singleton g, fun a ha hb =>
          hgacc (by rw [← List.mem_singleton.mp hb]; exact ha)⟩

theorem mkHazardComponentBranch_ok_of_len (reg : Registry) (sb : SourceBranch)
    (gbs : List GMCMBranch) (h : gbs.length = 1) :
    ∃ hb, mkHazardComponentBranch reg sb gbs = .ok hb := by
  unfold mkHazardComponentBranch gmcm_hash_digest
  rw [show (gbs.length != 1) = false from by simp [h]]
  exact ⟨_, rfl⟩

theorem buildComposite_ok_weight (reg : Registry) (fglsets : List GMCMBranchSet)
    (s : SourceCompositeBranch) (g : List GMCMBranch)
    (hg : g ∈ listProd (fglsets.map (fun bs => bs.branches)))
    (h_tb : ∀ bs ∈ fglsets, ∀ b ∈ bs.branches,
      b.tectonic_region_type = bs.tectonic_region_type)
    (h_sep : List.Pairwise (fun bs1 bs2 => ∀ b1 ∈ bs1.branches, ∀ b2 ∈ bs2.branches,
      pyEq b1 b2 = false) fglsets)
    (h_match : ∀ br ∈ s.branches, (fglsets.filter
      (fun bs => br.tectonic_region_types.contains bs.tectonic_region_type)).length = 1)
    (h_cover : ∀ bs ∈ fglsets, ∃ br ∈ s.branches,
      bs.tectonic_region_type ∈ br.tectonic_region_types) :
    ∃ c, buildCompositeBranch reg s g = .ok c ∧
      c.weight = s.weight * (g.map (fun b => b.weight)).prod := by
  have hf1 : List.Forall₂ (fun (x : GMCMBranch) (bs : GMCMBranchSet) => x ∈ bs.branches)
      g fglsets := List.forall₂_map_right_iff.mp (listProd_forall2 _ g hg)
  have hf2 : List.Forall₂ (fun (x : GMCMBranch) (bs : GMCMBranchSet) =>
      x ∈ bs.branches ∧ x.tectonic_region_type = bs.tectonic_region_type) g fglsets :=
    forall2_mem_imp hf1 (fun x _ bs hbs hr => ⟨hr, h_tb bs hbs x hr⟩)
  have hmatch1 : ∀ br ∈ s.branches, ∃ xb, matchGmcmBranches br g = [xb] := by
    intro br hbr
    have hff := forall2_filter
      (fun x : GMCMBranch => br.tectonic_region_types.contains x.tectonic_region_type)
      (fun bs : GMCMBranchSet => br.tectonic_region_types.contains bs.tectonic_region_type)
      (fun x bs hr => by
        show br.tectonic_region_types.contains x.tectonic_region_type =
          br.tectonic_region_types.contains bs.tectonic_region_type
        rw [hr.2]) hf2
    have hlen := hff.length_eq
    rw [h_match br hbr] at hlen
    exact List.length_eq_one.mp hlen
  obtain ⟨hbranches, hmds⟩ := mapME_ok_of_forall
    (fun br => mkHazardComponentBranch reg br (matchGmcmBranches br g)) s.branches
    (fun br hbr => by
      obtain ⟨xb, hxb⟩ := hmatch1 br hbr
      exact mkHazardComponentBranch_ok_of_len reg br _ (by rw [hxb]; rfl))
  have hfa := mapME_ok_forall2 _ _ _ hmds
  refine ⟨mkHazardCompositeBranch hbranches s.weight,
    by unfold buildCompositeBranch; rw [hmds], ?_⟩
  show ((uniqueGsims hbranches).map (fun gb => gb.weight)).prod * s.weight = _
  have hcompinv : ∀ hb ∈ hbranches, ∃ br ∈ s.branches,
      hb.gmcm_branches = matchGmcmBranches br g := by
    intro hb hhb
    obtain ⟨br, hbr, hmk⟩ := forall2_exists_left hfa hb hhb
    exact ⟨br, hbr, (mkHazardComponentBranch_ok_inv reg br _ hb hmk).1⟩
  have hFsubg : ∀ x ∈ (hbranches.map (fun b => b.gmcm_branches)).flatten, x ∈ g := by
    intro x hx
    rw [List.mem_flatten] at hx
    obtain ⟨lx, hlx, hxl⟩ := hx
    rw [List.mem_map] at hlx
    obtain ⟨hb, hhb, hlb⟩ := hlx
    obtain ⟨br, _, hbg⟩ := hcompinv hb hhb
    rw [← hlb, hbg] at hxl
    exact List.mem_of_mem_filter hxl
  have hgsubF : ∀ x ∈ g, x ∈ (hbranches.map (fun b => b.gmcm_branches)).flatten := by
    intro x hx
    obtain ⟨bs, hbs, hxbs⟩ := forall2_exists_right hf2 x hx
    obtain ⟨br, hbr, htrt⟩ := h_cover bs hbs
    have hxin : x ∈ matchGmcmBranches br g := by
      unfold matchGmcmBranches
      rw [List.mem_filter]
      refine ⟨hx, ?_⟩
      rw [hxbs.2]
      simpa using htrt
    obtain ⟨hb, hhb, hmk⟩ := forall2_exists_right hfa br hbr
    have hgb := (mkHazardComponentBranch_ok_inv reg br _ hb hmk).1
    rw [List.mem_flatten]
    refine ⟨hb.gmcm_branches, List.mem_map_of_mem _ hhb, ?_⟩
    rw [hgb]
    exact hxin
  have hQ : List.Pairwise (fun x y : GMCMBranch => pyEq x y = false) g :=
    forall2_pairwise (fun a b a2 b2 hr hr2 hp => hp a hr.1 a2 hr2.1) hf2 h_sep
  have hQ2 : List.Pairwise (fun x y : GMCMBranch =>
      pyEq x y = false ∧ pyEq y x = false) g :=
    hQ.imp (fun h => ⟨h, pyEq_symm_false _ _ h⟩)
  have heq : ∀ a ∈ g, ∀ b ∈ g, (pyEq a b = true ↔ a = b) := by
    intro a ha b hb
    constructor
    · intro hpq
      by_contra hne
      have hfalse := (List.Pairwise.forall (fun x y h => ⟨h.2, h.1⟩) hQ2 ha hb hne).1
      rw [hfalse] at hpq
      exact absurd hpq (by decide)
    · intro he
      rw [he]
      exact pyEq_refl b
  have hnodupg : g.Nodup := by
    refine hQ.imp ?_
    intro x y h hxy
    subst hxy
    rw [pyEq_refl x] at h
    exact absurd h (by decide)
  rw [uniqueGsims_eq_foldl]
  have hperm : List.Perm
      (((hbranches.map (fun b => b.gmcm_branches)).flatten).foldl
        (fun gs gsim => if gs.any (fun x => pyEq gsim x) then gs else gs ++ [gsim]) []) g := by
    apply List.perm_of_nodup_nodup_toFinset_eq
    · exact dedupFold_nodup pyEq g heq _ [] hFsubg (List.nil_subset g) List.nodup_nil
    · exact hnodupg
    · ext a
      simp only [List.mem_toFinset]
      constructor
      · intro hmem
        rcases dedupFold_acc_sub pyEq _ [] a hmem with h1 | h1
        · exact absurd h1 (by simp)
        · exact hFsubg a h1
      · intro hmem
        exact dedupFold_mem pyEq g heq _ [] hFsubg (List.nil_subset g) a (hgsubF a hmem)
  rw [(hperm.map (fun gb => gb.weight)).prod_eq]
  exact mul_comm _ _

theorem forall2_map_eq {α β γ : Type} (f : α → γ) (h : β → γ) :
    ∀ {l1 : List α} {l2 : List β}, List.Forall₂ (fun a b => h b = f a) l1 l2 →
      l2.map h = l1.map f := by
  intro l1 l2 hf
  induction hf with
  | nil => rfl
  | @cons a b t1 t2 hab ht ih =>
    simp only [List.map_cons, hab, ih]

/-- C1: for every valid pair of SRM and GMCM logic trees, with source
branch correlations already folded into the SRM tree's own composite
enumeration, the sum of HazardLogicTree.weights is exactly one - and in
particular within the claimed relative tolerance of 1e-6.  Validity means:
each GMCM branch carries its branch set's region type, the filtered branch
sets are pairwise disjoint under Python branch equality, each filtered
branch set's weights sum to one, the SRM composite weights sum to one,
every source branch of every composite matches exactly one filtered GMCM
branch set, and every filtered branch set is matched by some source branch
of every composite. -/
theorem C1_weight_closure (reg : Registry) (srm : SourceLogicTree) (gmcm : GMCMLogicTree)
    (h_tb : ∀ bs ∈ gmcm.branch_sets, ∀ b ∈ bs.branches,
      b.tectonic_region_type = bs.tectonic_region_type)
    (h_sep : List.Pairwise (fun bs1 bs2 => ∀ b1 ∈ bs1.branches, ∀ b2 ∈ bs2.branches,
      pyEq b1 b2 = false) (filteredGmcmTree srm gmcm).branch_sets)
    (h_sets1 : ∀ bs ∈ (filteredGmcmTree srm gmcm).branch_sets,
      (bs.branches.map (fun b => b.weight)).sum = 1)
    (h_srm1 : (srm.composite_branches.map (fun s => s.weight)).sum = 1)
    (h_match : ∀ s ∈ srm.composite_branches, ∀ br ∈ s.branches,
      ((filteredGmcmTree srm gmcm).branch_sets.filter
        (fun bs => br.tectonic_region_types.contains bs.tectonic_region_type)).length = 1)
    (h_cover : ∀ s ∈ srm.composite_branches, ∀ bs ∈ (filteredGmcmTree srm gmcm).branch_sets,
      ∃ br ∈ s.branches, bs.tectonic_region_type ∈ br.tectonic_region_types) :
    ∃ ws, hazardWeights reg srm gmcm = .ok ws ∧ ws.sum = 1 ∧
      |ws.sum - 1| ≤ 1 / 1000000 := by
  have hpair : ∀ p ∈ pairProd srm.composite_branches
      (gmcmCompositeBranches (filteredGmcmTree srm gmcm)),
      ∃ c, buildCompositeBranch reg p.1 p.2 = .ok c ∧
        c.weight = p.1.weight * (p.2.map (fun b => b.weight)).prod := by
    intro p hp
    obtain ⟨hp1, hp2⟩ := pairProd_mem_inv _ _ p hp
    exact buildComposite_ok_weight reg (filteredGmcmTree srm gmcm).branch_sets p.1 p.2
      hp2
      (fun bs hbs b hb => h_tb bs (List.mem_of_mem_filter hbs) b hb)
      h_sep
      (fun br hbr => h_match p.1 hp1 br hbr)
      (fun bs hbs => h_cover p.1 hp1 bs hbs)
  obtain ⟨cs, hcs⟩ := mapME_ok_of_forall
    (fun p => buildCompositeBranch reg p.1 p.2)
    (pairProd srm.composite_branches (gmcmCompositeBranches (filteredGmcmTree srm gmcm)))
    (fun p hp => (hpair p hp).elim (fun c hc => ⟨c, hc.1⟩))
  have hfa := mapME_ok_forall2 _ _ _ hcs
  have hfa2 : List.Forall₂ (fun p (c : HazardCompositeBranch) =>
      c.weight = p.1.weight * (p.2.map (fun b => b.weight)).prod)
      (pairProd srm.composite_branches (gmcmCompositeBranches (filteredGmcmTree srm gmcm)))
      cs := by
    refine forall2_mem_imp hfa ?_
    intro p hp c _ hbc
    obtain ⟨c2, hc2, hw2⟩ := hpair p hp
    rw [hbc] at hc2
    simp only [Except.ok.injEq] at hc2
    rw [← hc2] at hw2
    exact hw2
  have hmapeq : cs.map (fun c => c.weight) =
      (pairProd srm.composite_branches
        (gmcmCompositeBranches (filteredGmcmTree srm gmcm))).map
        (fun p => p.1.weight * (p.2.map (fun b => b.weight)).prod) :=
    forall2_map_eq _ _ hfa2
  have hsum : (cs.map (fun c => c.weight)).sum = 1 := by
    rw [hmapeq]
    rw [pairProd_sum (fun s : SourceCompositeBranch => s.weight)
      (fun g : List GMCMBranch => (g.map (fun b => b.weight)).prod)
      (gmcmCompositeBranches (filteredGmcmTree srm gmcm)) srm.composite_branches]
    rw [h_srm1, one_mul]
    show ((gmcmCompositeBranches (filteredGmcmTree srm gmcm)).map
      (fun c => (c.map (fun b => b.weight)).prod)).sum = 1
    unfold gmcmCompositeBranches
    rw [listProd_sum_prod (fun b : GMCMBranch => b.weight)
      ((filteredGmcmTree srm gmcm).branch_sets.map (fun bs => bs.branches))]
    rw [List.map_map]
    apply List.prod_eq_one
    intro x hx
    rw [List.mem_map] at hx
    obtain ⟨bs, hbs, hxbs⟩ := hx
    rw [← hxbs]
    exact h_sets1 bs hbs
  refine ⟨cs.map (fun c => c.weight), ?_, hsum, ?_⟩
  · unfold hazardWeights
    rw [show generateCompositeBranches reg srm gmcm = .ok cs from hcs]
  · rw [hsum]
    norm_num

/-- Witness for C1: a two-composite SRM tree against a one-set GMCM tree;
the four composite weights sum to exactly one. -/
theorem C1_weight_closure_witness :
    ∃ ws, hazardWeights fixReg fixSrm1 fixGmcm1 = .ok ws ∧ ws.sum = 1 ∧
      |ws.sum - 1| ≤ 1 / 1000000 :=
  C1_weight_closure fixReg fixSrm1 fixGmcm1
    (by decide)
    (by decide)
    (by
      intro bs hbs
      have h2 : (filteredGmcmTree fixSrm1 fixGmcm1).branch_sets = [fixBsA] := rfl
      rw [h2, List.mem_singleton] at hbs
      rw [hbs]
      norm_num [fixBsA])
    (by norm_num [fixSrm1])
    (by decide)
    (by decide)
